import Mathlib

/-!
# workgroup: a shallow embedding of `Group.Add` and `Group.Run`

Source: `src/workgroup.go`.

`Add` is embedded over a memory of slice headers and backing arrays, so that Go's `append`
keeps its sharing.  `Run` is concurrent, so it is embedded as a small-step
transition system.  A state holds the program counter of the goroutine executing `Run`, one
record per goroutine started by the `go` statement, the counter of the `sync.WaitGroup`, the
`stop` channel and the buffered `result` channel.  A schedule is a list of actions, each
naming the goroutine that takes the next step; "every interleaving" is "every schedule", and
a state is reachable when `Group.Run g sched` yields it for some schedule.

A task (`func(<-chan struct{}) error`) is caller code.  It is embedded as a reactive program
over a private state: one slice of its body sees whether `stop` is closed (all that a
receive-only channel lets it observe) and either keeps running, returns an `error` (`none` is
Go's `nil`), calls `runtime.Goexit`, or panics.  Tasks act on the execution only through
their outcome; a task that calls `Add` or `Run` on its own group is outside the embedding.

Channel and `WaitGroup` operations follow Go: a send blocks while the buffer is full, a
receive blocks while it is empty, `wg.Wait()` blocks while the counter is positive, closing a
closed channel panics, a counter that would go negative panics, and an unrecovered panic
aborts the process after the deferred calls of the panicking goroutine have run.

Fields marked "history" are not program variables: they count events (calls of a task,
sends, `wg.Done` calls, `close` calls, `make` calls) so that statements about "exactly once"
can be written down.  No transition reads them.
-/

namespace Workgroup

/-! ## Tasks and the group -/

/-- What one slice of a running task body does. -/
inductive Outcome (σ ε : Type) where
  /-- the body keeps running, with a new private state -/
  | more (s : σ)
  /-- the body executes `return err` -/
  | ret (err : Option ε)
  /-- the body calls `runtime.Goexit()`: deferred calls run, nothing is returned -/
  | goexit
  /-- the body panics and does not recover: deferred calls run, then the process aborts -/
  | panics

/-- A registered function `func(<-chan struct{}) error`. -/
structure Task (σ ε : Type) where
  /-- private state at the moment the function is called -/
  init : σ
  /-- one slice of the body; the `Bool` tells whether `stop` is closed -/
  body : σ → Bool → Outcome σ ε

/-- The struct `Group` as `Run` reads it: the elements of the slice `fn`, in order.  A nil
slice is `[]`. -/
structure Group (σ ε : Type) where
  fn : List (Task σ ε)

/-! ## Slices in memory and `Add` -/

/-- A slice header of type `[]func(<-chan struct{}) error`: the address of the backing array,
the length and the capacity.  The nil slice has length and capacity 0. -/
structure Slice where
  ptr : Nat
  len : Nat
  cap : Nat
  deriving DecidableEq

/-- The memory of the calling program as far as groups are concerned. -/
structure World (σ ε : Type) where
  /-- element `i` of the backing array at address `a`; `none` is a nil function -/
  cell : Nat → Nat → Option (Task σ ε)
  /-- first address that has not been allocated -/
  next : Nat
  /-- the field `fn` of the variable of type `Group` stored at `p` -/
  hdr : Nat → Slice
  /-- history: number of calls of registered functions made by operations on groups other
  than `Run` -/
  invoked : Nat

/-- A memory in which every variable of type `Group` holds the zero value. -/
def World.empty {σ ε : Type} : World σ ε :=
  { cell := fun _ _ => none, next := 1, hdr := fun _ => { ptr := 0, len := 0, cap := 0 },
    invoked := 0 }

/-- The elements `g.fn[0], ..., g.fn[len(g.fn)-1]` of the group stored at `p`. -/
def World.fnOf {σ ε : Type} (w : World σ ε) (p : Nat) : List (Option (Task σ ε)) :=
  (List.range (w.hdr p).len).map (w.cell (w.hdr p).ptr)

/-- Every slice header points to an allocated address. -/
def World.wf {σ ε : Type} (w : World σ ε) : Prop :=
  ∀ q, (w.hdr q).ptr < w.next

/-- The method `Add` on the group stored at `p`: `g.fn = append(g.fn, fn)`.  With spare
capacity `append` writes the slot just past the length of the backing array in place;
otherwise it allocates a new array that holds the old elements and `fn`, of capacity
`len + 1 + grow cap`, where `grow` is the growth policy of the Go runtime. -/
def Group.Add {σ ε : Type} (grow : Nat → Nat) (w : World σ ε) (p : Nat)
    (fn : Option (Task σ ε)) : World σ ε :=
  if (w.hdr p).len < (w.hdr p).cap then
    { w with
      cell := fun a i => if a = (w.hdr p).ptr ∧ i = (w.hdr p).len then fn else w.cell a i
      hdr := fun q => if q = p then { w.hdr p with len := (w.hdr p).len + 1 } else w.hdr q }
  else
    { w with
      cell := fun a i =>
        if a = w.next then
          if i < (w.hdr p).len then w.cell (w.hdr p).ptr i
          else if i = (w.hdr p).len then fn else none
        else w.cell a i
      next := w.next + 1
      hdr := fun q =>
        if q = p then
          { ptr := w.next, len := (w.hdr p).len + 1, cap := (w.hdr p).len + 1 + grow (w.hdr p).cap }
        else w.hdr q }

/-- The assignment `*dst = *src` between variables of type `Group` (caller code): the slice
header is copied, the backing array is shared. -/
def World.assign {σ ε : Type} (w : World σ ε) (dst src : Nat) : World σ ε :=
  { w with hdr := fun q => if q = dst then w.hdr src else w.hdr q }

/-- All elements of a list of function values, when none of them is nil. -/
def allFuncs {α : Type} : List (Option α) → Option (List α)
  | [] => some []
  | none :: _ => none
  | some x :: rest =>
    match allFuncs rest with
    | none => none
    | some xs => some (x :: xs)

/-- The group stored at `p` as `Run` reads it, when no registered function is nil. -/
def World.load {σ ε : Type} (w : World σ ε) (p : Nat) : Option (Group σ ε) :=
  match allFuncs (w.fnOf p) with
  | none => none
  | some fns => some { fn := fns }

/-! ## The state of one execution of `Run` -/

/-- Program counter of the goroutine that executes `Run`. -/
inductive MainPc (ε : Type) where
  /-- before the call of `Run` -/
  | idle
  /-- inside `for _, fn := range g.fn`, about to handle index `i` -/
  | spawn (i : Nat)
  /-- both `defer`s registered, evaluating `<-result` -/
  | recv
  /-- return value set to `r`; deferred `close(stop)` is next -/
  | closing (r : Option ε)
  /-- the signal `stop` is closed; deferred `wg.Wait()` is next -/
  | waiting (r : Option ε)
  /-- the call of `Run` has returned `r` -/
  | done (r : Option ε)
  deriving DecidableEq

/-- Program counter of the goroutine `go func(fn ...) { defer wg.Done(); result <- fn(stop) }(fn)`. -/
inductive GoPc (σ ε : Type) where
  /-- the `go` statement for this index has not been executed -/
  | absent
  /-- the goroutine exists; `fn(stop)` has not been called yet -/
  | created
  /-- inside `fn(stop)`, private state `s` -/
  | running (s : σ)
  /-- the call `fn(stop)` returned `v`; the send `result <- v` is next -/
  | returned (v : Option ε)
  /-- the send is done; deferred `wg.Done()` is next -/
  | sent
  /-- the call `fn(stop)` ended by `runtime.Goexit` (`false`) or by a panic (`true`);
  deferred `wg.Done()` is next -/
  | unwinding (fatal : Bool)
  /-- the deferred `wg.Done()` ran after the send; the goroutine is gone -/
  | exited
  /-- the deferred `wg.Done()` ran after `runtime.Goexit`; the goroutine is gone -/
  | aborted
  /-- the deferred `wg.Done()` ran while panicking; the runtime is about to abort the process -/
  | fatal

/-- One goroutine started by `Run`. -/
structure Goroutine (σ ε : Type) where
  pc : GoPc σ ε
  /-- history: how many times the task was called -/
  calls : Nat
  /-- history: the value the task returned, once it has returned -/
  ret : Option (Option ε)
  /-- history: how many sends on `result` this goroutine completed -/
  pubs : Nat
  /-- history: how many times this goroutine called `wg.Done` -/
  dones : Nat

/-- State of the process during one execution of `Run`. -/
structure State (σ ε : Type) where
  /-- the slice `g.fn` -/
  fn : List (Task σ ε)
  main : MainPc ε
  /-- goroutine started for index `i` of `g.fn` -/
  gs : Nat → Goroutine σ ε
  /-- counter of `wg` -/
  wg : Nat
  /-- the channel `stop`: `none` before `make`, then `some closed` -/
  stop : Option Bool
  /-- buffer of `result`, oldest first: `none` before `make` -/
  result : Option (List (Option ε))
  /-- capacity of `result` -/
  cap : Nat
  /-- the process was aborted by an unrecovered panic -/
  crashed : Bool
  /-- history: number of `make(chan ...)` executed -/
  made : Nat
  /-- history: number of `close(stop)` executed -/
  closes : Nat
  /-- history: number of receives from `result` completed -/
  recvd : Nat
  /-- history: every completed send on `result`, oldest first, with the index of the sender -/
  log : List (Nat × Option ε)

/-- A goroutine record before its `go` statement. -/
def Goroutine.fresh {σ ε : Type} : Goroutine σ ε :=
  { pc := .absent, calls := 0, ret := none, pubs := 0, dones := 0 }

/-- State before `Run` is called on `g`. -/
def init {σ ε : Type} (g : Group σ ε) : State σ ε :=
  { fn := g.fn, main := .idle, gs := fun _ => Goroutine.fresh, wg := 0, stop := none,
    result := none, cap := 0, crashed := false, made := 0, closes := 0, recvd := 0, log := [] }

/-- Whether a receive from `stop` would succeed, that is whether `stop` is closed. -/
def State.stopClosed {σ ε : Type} (st : State σ ε) : Bool :=
  match st.stop with
  | some true => true
  | _ => false

/-- Replace the record of goroutine `i`. -/
def State.setG {σ ε : Type} (st : State σ ε) (i : Nat) (g : Goroutine σ ε) : State σ ε :=
  { st with gs := fun j => if j = i then g else st.gs j }

/-! ## Transitions -/

/-- Who takes the next step. -/
inductive Action where
  /-- the goroutine executing `Run` -/
  | main
  /-- the goroutine started for index `i` -/
  | go (i : Nat)
  deriving DecidableEq

/-- One step of the goroutine executing `Run`; `none` when it is blocked or has returned. -/
def stepMain {σ ε : Type} (st : State σ ε) : Option (State σ ε) :=
  match st.main with
  | .idle =>
    -- if len(g.fn) < 1 { return nil }
    if st.fn.length < 1 then some { st with main := .done none }
    else
      -- wg.Add(len(g.fn)); stop := make(chan struct{}); result := make(chan error, len(g.fn))
      some { st with main := .spawn 0, wg := st.wg + st.fn.length, stop := some false,
                     result := some [], cap := st.fn.length, made := st.made + 2 }
  | .spawn i =>
    -- for _, fn := range g.fn { go func(fn ...) {...}(fn) }
    if i < st.fn.length then
      some { st.setG i { st.gs i with pc := .created } with main := .spawn (i + 1) }
    else
      -- defer wg.Wait(); defer close(stop)
      some { st with main := .recv }
  | .recv =>
    -- return <-result
    match st.result with
    | some (v :: rest) =>
      some { st with result := some rest, recvd := st.recvd + 1, main := .closing v }
    | _ => none
  | .closing r =>
    -- deferred close(stop); closing a closed channel panics
    match st.stop with
    | some false => some { st with stop := some true, closes := st.closes + 1, main := .waiting r }
    | _ => some { st with crashed := true }
  | .waiting r =>
    -- deferred wg.Wait()
    if st.wg = 0 then some { st with main := .done r } else none
  | .done _ => none

/-- The deferred `wg.Done()` of goroutine `i`, which then is in `next`.
A counter that would become negative panics. -/
def wgDone {σ ε : Type} (st : State σ ε) (i : Nat) (next : GoPc σ ε) : State σ ε :=
  if st.wg = 0 then { st with crashed := true }
  else { st.setG i { st.gs i with pc := next, dones := (st.gs i).dones + 1 } with wg := st.wg - 1 }

/-- One step of the goroutine started for index `i`; `none` when it does not exist,
is blocked or is gone. -/
def stepGo {σ ε : Type} (st : State σ ε) (i : Nat) : Option (State σ ε) :=
  match (st.gs i).pc with
  | .absent => none
  | .created =>
    -- fn(stop) is called
    match st.fn.get? i with
    | none => none
    | some t => some (st.setG i { st.gs i with pc := .running t.init, calls := (st.gs i).calls + 1 })
  | .running s =>
    match st.fn.get? i with
    | none => none
    | some t =>
      match t.body s st.stopClosed with
      | .more s' => some (st.setG i { st.gs i with pc := .running s' })
      | .ret v => some (st.setG i { st.gs i with pc := .returned v, ret := some v })
      | .goexit => some (st.setG i { st.gs i with pc := .unwinding false })
      | .panics => some (st.setG i { st.gs i with pc := .unwinding true })
  | .returned v =>
    -- result <- v; blocks while the buffer is full
    match st.result with
    | none => none
    | some buf =>
      if buf.length < st.cap then
        some { st.setG i { st.gs i with pc := .sent, pubs := (st.gs i).pubs + 1 } with
                 result := some (buf ++ [v]), log := st.log ++ [(i, v)] }
      else none
  | .sent => some (wgDone st i .exited)
  | .unwinding f => some (wgDone st i (if f then .fatal else .aborted))
  | .exited => none
  | .aborted => none
  | .fatal => some { st with crashed := true }

/-- One step of the process.  Nothing runs once the process has been aborted. -/
def step {σ ε : Type} (st : State σ ε) (a : Action) : Option (State σ ε) :=
  if st.crashed then none
  else
    match a with
    | .main => stepMain st
    | .go i => stepGo st i

/-- Run a schedule from a state; `none` when the schedule asks a goroutine that cannot move. -/
def exec {σ ε : Type} (st : State σ ε) : List Action → Option (State σ ε)
  | [] => some st
  | a :: rest =>
    match step st a with
    | none => none
    | some st' => exec st' rest

/-- The method `Run` under a schedule: the state the process is in after the schedule,
starting from the call of `Run` on `g`. -/
def Group.Run {σ ε : Type} (g : Group σ ε) (sched : List Action) : Option (State σ ε) :=
  exec (init g) sched

/-- The value `Run` has returned in a state, when it has returned. -/
def State.returned {σ ε : Type} (st : State σ ε) : Option (Option ε) :=
  match st.main with
  | .done r => some r
  | _ => none

/-! ## Examples of tasks -/

/-- A task that returns `v` as soon as it runs. -/
def Task.immediate {ε : Type} (v : Option ε) : Task Nat ε :=
  { init := 0, body := fun _ _ => .ret v }

/-- A task that never looks at `stop`, works for `k` slices and returns `v`. -/
def Task.stubborn {ε : Type} (k : Nat) (v : Option ε) : Task Nat ε :=
  { init := 0, body := fun s _ => if s < k then .more (s + 1) else .ret v }

/-- A task that waits until `stop` is closed and then returns `v`. -/
def Task.waiter {ε : Type} (v : Option ε) : Task Nat ε :=
  { init := 0, body := fun s closed => if closed then .ret v else .more s }

/-- A task that calls `runtime.Goexit()`. -/
def Task.quitter {ε : Type} : Task Nat ε :=
  { init := 0, body := fun _ _ => .goexit }

/-- A task that panics. -/
def Task.panicker {ε : Type} : Task Nat ε :=
  { init := 0, body := fun _ _ => .panics }

/-! ## Counting over the registered indices -/

/-- The sum `f 0 + ... + f (n - 1)`. -/
def sumTo (f : Nat → Nat) : Nat → Nat
  | 0 => 0
  | n + 1 => sumTo f n + f n

/-- Number of `wg.Done()` calls made so far by the goroutines of the registered tasks. -/
def State.doneCount {σ ε : Type} (st : State σ ε) : Nat :=
  sumTo (fun i => (st.gs i).dones) st.fn.length

/-- Number of sends on `result` completed so far by the goroutines of the registered tasks. -/
def State.pubCount {σ ε : Type} (st : State σ ε) : Nat :=
  sumTo (fun i => (st.gs i).pubs) st.fn.length

/-! ## Predicates used in the statements -/

/-- The task's invocation is over and its goroutine has run the deferred `wg.Done()`. -/
def GoPc.finished {σ ε : Type} : GoPc σ ε → Bool
  | .exited => true
  | .aborted => true
  | .fatal => true
  | _ => false

/-- The task's invocation ended without a return value. -/
def GoPc.abnormal {σ ε : Type} : GoPc σ ε → Bool
  | .unwinding _ => true
  | .aborted => true
  | .fatal => true
  | _ => false

/-- Calls of the task that a goroutine at this program counter has made. -/
def GoPc.callsAt {σ ε : Type} : GoPc σ ε → Nat
  | .absent => 0
  | .created => 0
  | _ => 1

/-- Sends that a goroutine at this program counter has completed. -/
def GoPc.pubsAt {σ ε : Type} : GoPc σ ε → Nat
  | .sent => 1
  | .exited => 1
  | _ => 0

/-- Calls of `wg.Done` that a goroutine at this program counter has made. -/
def GoPc.donesAt {σ ε : Type} : GoPc σ ε → Nat
  | .exited => 1
  | .aborted => 1
  | .fatal => 1
  | _ => 0

/-- The recorded return value that goes with a program counter. -/
def GoPc.retAt {σ ε : Type} (ret : Option (Option ε)) : GoPc σ ε → Prop
  | .returned v => ret = some v
  | .sent => ∃ v, ret = some v
  | .exited => ∃ v, ret = some v
  | _ => ret = none

/-- Some slice of the task's body executes `return v`. -/
def Task.canReturn {σ ε : Type} (t : Task σ ε) (v : Option ε) : Prop :=
  ∃ s b, t.body s b = .ret v

/-- Some slice of the task's body calls `runtime.Goexit` or panics. -/
def Task.canAbort {σ ε : Type} (t : Task σ ε) : Prop :=
  ∃ s b, t.body s b = .goexit ∨ t.body s b = .panics

/-- Where the goroutine of a task is after a slice of the task's body with this outcome. -/
def GoPc.after {σ ε : Type} : Outcome σ ε → GoPc σ ε
  | .more s => .running s
  | .ret v => .returned v
  | .goexit => .unwinding false
  | .panics => .unwinding true

/-- The lifecycle states of the specification. -/
inductive Phase where
  | idle
  | running
  | draining
  | done
  deriving DecidableEq

/-- Lifecycle state of an execution: `running` while `stop` is open, `draining` once
`close(stop)` has run and `wg.Wait()` is pending. -/
def State.phase {σ ε : Type} (st : State σ ε) : Phase :=
  match st.main with
  | .idle => .idle
  | .spawn _ => .running
  | .recv => .running
  | .closing _ => .running
  | .waiting _ => .draining
  | .done _ => .done

/-- The lifecycle moves allowed for a group with `n` tasks: stay, or advance by one state;
`idle` to `done` only with no task. -/
def Phase.next (n : Nat) : Phase → Phase → Bool
  | .idle, .idle => true
  | .idle, .running => decide (1 ≤ n)
  | .idle, .done => decide (n = 0)
  | .running, .running => true
  | .running, .draining => true
  | .draining, .draining => true
  | .draining, .done => true
  | .done, .done => true
  | _, _ => false

/-! ## The invariant of `Run` -/

/-- History of one goroutine agrees with its program counter. -/
structure GInv {σ ε : Type} (g : Goroutine σ ε) : Prop where
  calls : g.calls = g.pc.callsAt
  pubs : g.pubs = g.pc.pubsAt
  dones : g.dones = g.pc.donesAt
  ret : g.pc.retAt g.ret

/-- Nothing has happened yet: the state of every field before `Run` does anything. -/
structure Pristine {σ ε : Type} (st : State σ ε) : Prop where
  gs : ∀ i, (st.gs i).pc = .absent
  wg : st.wg = 0
  stop : st.stop = none
  result : st.result = none
  made : st.made = 0
  closes : st.closes = 0
  recvd : st.recvd = 0
  log : st.log = []
  crashed : st.crashed = false

/-- Facts that hold from the set-up of `Run` on, with at least one task. -/
structure Started {σ ε : Type} (st : State σ ε) : Prop where
  pos : 1 ≤ st.fn.length
  cap : st.cap = st.fn.length
  made : st.made = 2
  wg : st.wg + st.doneCount = st.fn.length
  log : st.log.length = st.pubCount

/-- The first result has not been received and `stop` is open. -/
structure Open {σ ε : Type} (st : State σ ε) : Prop where
  stop : st.stop = some false
  closes : st.closes = 0
  recvd : st.recvd = 0
  result : st.result = some (st.log.map Prod.snd)

/-- Exactly one result has been received; it is `r`, the first one sent. -/
structure First {σ ε : Type} (st : State σ ε) (r : Option ε) : Prop where
  recvd : st.recvd = 1
  log : ∃ i rest, st.log = (i, r) :: rest ∧ st.result = some (rest.map Prod.snd)

/-- The `go` statement has been executed for every registered task. -/
def Launched {σ ε : Type} (st : State σ ε) : Prop :=
  ∀ j, j < st.fn.length → (st.gs j).pc ≠ .absent

/-- What holds at each program counter of `Run`. -/
def MainInv {σ ε : Type} (st : State σ ε) : Prop :=
  match st.main with
  | .idle => Pristine st
  | .spawn i => Started st ∧ Open st ∧ i ≤ st.fn.length ∧
      (∀ j, j < i → (st.gs j).pc ≠ .absent) ∧ (∀ j, i ≤ j → (st.gs j).pc = .absent)
  | .recv => Started st ∧ Open st ∧ Launched st
  | .closing r => Started st ∧ Launched st ∧ First st r ∧ st.stop = some false ∧ st.closes = 0
  | .waiting r => Started st ∧ Launched st ∧ First st r ∧ st.stop = some true ∧ st.closes = 1
  | .done r => (Pristine st ∧ st.fn = [] ∧ r = none) ∨
      (Started st ∧ Launched st ∧ First st r ∧ st.stop = some true ∧ st.closes = 1 ∧ st.wg = 0)

/-- The invariant of every state reachable from the call of `Run`. -/
structure Inv {σ ε : Type} (st : State σ ε) : Prop where
  gok : ∀ i, GInv (st.gs i)
  outside : ∀ i, st.fn.length ≤ i → (st.gs i).pc = .absent
  origin : ∀ i v, (st.gs i).ret = some v → ∃ t, st.fn.get? i = some t ∧ t.canReturn v
  abn : ∀ i, (st.gs i).pc.abnormal = true → ∃ t, st.fn.get? i = some t ∧ t.canAbort
  logged : ∀ p, p ∈ st.log → (st.gs p.1).ret = some p.2
  main : MainInv st
  crash : st.crashed = true → ∃ i, (st.gs i).pc = .fatal

/-- Number of registered tasks that have returned a value so far. -/
def State.retCount {σ ε : Type} (st : State σ ε) : Nat :=
  sumTo (fun i => if (st.gs i).ret.isSome then 1 else 0) st.fn.length

/-- Outcome of a task that runs with `stop` open for at most `k` further slices after the
current one: the first outcome that is not `more`, or `more` when `k` slices do not suffice. -/
def Task.openOutcome {σ ε : Type} (t : Task σ ε) : Nat → σ → Outcome σ ε
  | 0, s => t.body s false
  | k + 1, s =>
    match t.body s false with
    | .more s' => t.openOutcome k s'
    | .ret v => .ret v
    | .goexit => .goexit
    | .panics => .panics

/-- The single task is on the way to returning `V`, and has returned nothing else. -/
def SoloInv {σ ε : Type} (t : Task σ ε) (V : Option ε) (st : State σ ε) : Prop :=
  (∀ s, (st.gs 0).pc = .running s → ∃ k, t.openOutcome k s = .ret V) ∧
  (∀ v, (st.gs 0).ret = some v → v = V)

/-- Everything known about a reachable state of a group with the single task `t`. -/
structure Solo {σ ε : Type} (t : Task σ ε) (V : Option ε) (st : State σ ε) : Prop where
  inv : Inv st
  fn : st.fn = [t]
  traj : SoloInv t V st
  sane : (st.gs 0).pc.abnormal = false

/-- Some continuation of the execution makes `Run` return `V`. -/
def CanReturn {σ ε : Type} (V : Option ε) (st : State σ ε) : Prop :=
  ∃ more st', exec st more = some st' ∧ st'.returned = some V

/-! ## Concrete groups and schedules -/

/-- An error value. -/
def errFoo : Nat := 1

/-- Two registered tasks: task 0 returns `errFoo` at once, task 1 never looks at `stop` and
works for a while before it returns `nil`. -/
def scenario : Group Nat Nat :=
  { fn := [Task.immediate (some errFoo), Task.stubborn 2 none] }

/-- A complete execution of `scenario`: set-up and both `go` statements, task 0 runs, returns
and sends, `Run` receives and closes `stop`, goroutine 0 finishes, task 1 runs to its end,
`wg.Wait()` returns. -/
def scenarioSched : List Action :=
  [.main, .main, .main, .main, .go 0, .go 0, .go 0, .main, .main, .go 0,
   .go 1, .go 1, .go 1, .go 1, .go 1, .go 1, .main]

/-- The schedule `scenarioSched` cut after goroutine 0 has finished, followed by a step of
`Run` while task 1 has not even started. -/
def scenarioBlocked : List Action :=
  [.main, .main, .main, .main, .go 0, .go 0, .go 0, .main, .main, .go 0, .main]

/-- Two registered tasks: task 0 returns `nil` at once, task 1 calls `runtime.Goexit()`. -/
def quitScenario : Group Nat Nat :=
  { fn := [Task.immediate none, Task.quitter] }

/-- Set-up and both `go` statements, then goroutine 1 alone: its task is called, calls
`runtime.Goexit()`, and the deferred `wg.Done()` runs. -/
def quitPrefix : List Action :=
  [.main, .main, .main, .main, .go 1, .go 1, .go 1]

/-- A complete execution of `quitScenario`: `quitPrefix`, then task 0 runs, returns and sends,
`Run` receives and closes `stop`, goroutine 0 finishes, `wg.Wait()` returns. -/
def quitSched : List Action :=
  [.main, .main, .main, .main, .go 1, .go 1, .go 1, .go 0, .go 0, .go 0, .main, .main,
   .go 0, .main]

/-- Three registered tasks: task 0 returns `nil` at once, tasks 1 and 2 wait until `stop` is
closed and then return `nil`. -/
def cancelScenario : Group Nat Nat :=
  { fn := [Task.immediate none, Task.waiter none, Task.waiter none] }

/-- A complete execution of `cancelScenario`: set-up and the three `go` statements, task 1
starts and finds `stop` open, task 0 runs, returns and sends, `Run` receives and closes `stop`,
tasks 1 and 2 find `stop` closed, return and send, every goroutine finishes, `wg.Wait()`
returns. -/
def cancelSched : List Action :=
  [.main, .main, .main, .main, .main, .go 1, .go 1, .go 0, .go 0, .go 0, .main, .main,
   .go 1, .go 1, .go 1, .go 2, .go 2, .go 2, .go 2, .go 0, .main]

/-- Two registered tasks: task 0 returns `nil` at once, task 1 panics. -/
def panicScenario : Group Nat Nat :=
  { fn := [Task.immediate none, Task.panicker] }

/-- An execution of `panicScenario`: task 1 is called and panics, its deferred `wg.Done()`
runs, task 0 returns and sends, `Run` receives, closes `stop`, goroutine 0 finishes,
`wg.Wait()` returns, and then the runtime aborts the process. -/
def panicSched : List Action :=
  [.main, .main, .main, .main, .go 1, .go 1, .go 1, .go 0, .go 0, .go 0, .main, .main,
   .go 0, .main, .go 1]

/-- The schedule `cancelSched` cut after `close(stop)`: task 1 has started and is waiting,
task 2 has not been called. -/
def cancelClosed : List Action :=
  [.main, .main, .main, .main, .main, .go 1, .go 1, .go 0, .go 0, .go 0, .main, .main]

/-- A complete execution of a group with the single task `Task.stubborn 2 v`. -/
def soloSched : List Action :=
  [.main, .main, .main, .go 0, .go 0, .go 0, .go 0, .go 0, .main, .main, .go 0, .main]

/-- A complete execution of a group with four tasks in which the task registered last runs,
returns and sends first. -/
def lastFirstSched : List Action :=
  [.main, .main, .main, .main, .main, .main, .go 3, .go 3, .go 3, .main, .main, .go 3,
   .go 0, .go 0, .go 0, .go 0, .go 1, .go 1, .go 1, .go 1, .go 2, .go 2, .go 2, .go 2, .main]

/-- Growth that doubles the capacity of a full slice, as the Go runtime does for small
slices: capacities 1, 2, 4, 8. -/
def doubling (cap : Nat) : Nat := cap - 1

/-- The program `var g, h Group; g.Add(f1); g.Add(f2); g.Add(f3); h = g; g.Add(f4)`, with `g`
stored at 0, `h` at 1, and `fk` the function that returns the error `k` at once. -/
def aliased : World Nat Nat :=
  Group.Add doubling
    (World.assign
      (Group.Add doubling
        (Group.Add doubling
          (Group.Add doubling World.empty 0 (some (Task.immediate (some 1))))
          0 (some (Task.immediate (some 2))))
        0 (some (Task.immediate (some 3))))
      1 0)
    0 (some (Task.immediate (some 4)))

/-- The world `aliased` after `h.Add(f5)`. -/
def aliasedAfter : World Nat Nat :=
  Group.Add doubling aliased 1 (some (Task.immediate (some 5)))

/-- What each function of a task list does in its first slice. -/
def firstSlices {σ ε : Type} (l : List (Option (Task σ ε))) : List (Option (Outcome σ ε)) :=
  l.map (Option.map (fun t => t.body t.init false))

variable {σ ε : Type}

/-! ## Lemmas on sums -/

theorem sumTo_congr (f h : Nat → Nat) (n : Nat) (hfh : ∀ j, j < n → f j = h j) :
    sumTo f n = sumTo h n := by
  induction n with
  | zero => rfl
  | succ k ih =>
    simp only [sumTo]
    rw [ih (fun j hj => hfh j (by omega)), hfh k (by omega)]

theorem sumTo_set (f h : Nat → Nat) (i n : Nat) (hi : i < n)
    (hne : ∀ j, j ≠ i → h j = f j) : sumTo h n + f i = sumTo f n + h i := by
  induction n with
  | zero => omega
  | succ k ih =>
    simp only [sumTo]
    by_cases hik : i = k
    · subst hik
      have := sumTo_congr h f i (fun j hj => hne j (by omega))
      omega
    · have := ih (by omega)
      have := hne k (fun hk => hik hk.symm)
      omega

theorem sumTo_le (f : Nat → Nat) (n : Nat) (hf : ∀ j, j < n → f j ≤ 1) : sumTo f n ≤ n := by
  induction n with
  | zero => simp [sumTo]
  | succ k ih =>
    simp only [sumTo]
    have := ih (fun j hj => hf j (by omega))
    have := hf k (by omega)
    omega

theorem sumTo_lt (f : Nat → Nat) (i n : Nat) (hi : i < n) (h0 : f i = 0)
    (hf : ∀ j, j < n → f j ≤ 1) : sumTo f n < n := by
  induction n with
  | zero => omega
  | succ k ih =>
    simp only [sumTo]
    by_cases hik : i = k
    · subst hik
      have := sumTo_le f i (fun j hj => hf j (by omega))
      omega
    · have := ih (by omega) (fun j hj => hf j (by omega))
      have := hf k (by omega)
      omega

theorem sumTo_full (f : Nat → Nat) (n : Nat) (hf : ∀ j, j < n → f j ≤ 1)
    (hsum : sumTo f n = n) : ∀ j, j < n → f j = 1 := by
  intro j hj
  by_contra hne
  have h0 : f j = 0 := by have := hf j hj; omega
  have := sumTo_lt f j n hj h0 hf
  omega

theorem sumTo_ones (f : Nat → Nat) (n : Nat) (hf : ∀ j, j < n → f j = 1) : sumTo f n = n := by
  induction n with
  | zero => rfl
  | succ k ih =>
    simp only [sumTo]
    rw [ih (fun j hj => hf j (by omega)), hf k (by omega)]

/-! ## Preservation of the invariant -/

theorem setG_gs (st : State σ ε) (i j : Nat) (g : Goroutine σ ε) :
    (st.setG i g).gs j = if j = i then g else st.gs j := rfl

theorem setG_gs_self (st : State σ ε) (i : Nat) (g : Goroutine σ ε) :
    (st.setG i g).gs i = g := by simp [setG_gs]

theorem setG_gs_ne (st : State σ ε) (i j : Nat) (g : Goroutine σ ε) (h : j ≠ i) :
    (st.setG i g).gs j = st.gs j := by simp [setG_gs, h]

theorem sumTo_zero (f : Nat → Nat) (n : Nat) (hf : ∀ j, j < n → f j = 0) : sumTo f n = 0 := by
  induction n with
  | zero => rfl
  | succ k ih =>
    simp only [sumTo]
    rw [ih (fun j hj => hf j (by omega)), hf k (by omega)]

theorem sum_setG (F : Goroutine σ ε → Nat) (st : State σ ε) (i : Nat) (g : Goroutine σ ε)
    (n : Nat) (hi : i < n) :
    sumTo (fun j => F ((st.setG i g).gs j)) n + F (st.gs i)
      = sumTo (fun j => F (st.gs j)) n + F g := by
  have := sumTo_set (fun j => F (st.gs j)) (fun j => F ((st.setG i g).gs j)) i n hi
    (fun j hj => by simp [setG_gs, hj])
  simpa [setG_gs] using this

theorem stepMain_inv {st st' : State σ ε} (h : Inv st) (hs : stepMain st = some st') :
    Inv st' := by
  have hm := h.main
  unfold stepMain at hs
  unfold MainInv at hm
  split at hs
  · rename_i hmain
    rw [hmain] at hm
    simp only at hm
    split at hs
    · rename_i hlen
      cases hs
      have hnil : st.fn = [] := List.length_eq_zero.mp (by omega)
      exact { gok := h.gok, outside := h.outside, origin := h.origin, abn := h.abn,
              logged := h.logged, crash := h.crash,
              main := Or.inl ⟨⟨hm.gs, hm.wg, hm.stop, hm.result, hm.made, hm.closes, hm.recvd,
                hm.log, hm.crashed⟩, hnil, rfl⟩ }
    · rename_i hlen
      cases hs
      have hd : st.doneCount = 0 :=
        sumTo_zero _ _ (fun j _ => by rw [(h.gok j).dones, hm.gs j]; rfl)
      have hp : st.pubCount = 0 :=
        sumTo_zero _ _ (fun j _ => by rw [(h.gok j).pubs, hm.gs j]; rfl)
      refine { gok := h.gok, outside := h.outside, origin := h.origin, abn := h.abn,
               logged := h.logged, crash := h.crash, main := ?_ }
      refine ⟨⟨by simp only; omega, rfl, by simp only [hm.made], ?_, ?_⟩,
        ⟨rfl, hm.closes, hm.recvd, by simp only [hm.log]; rfl⟩, Nat.zero_le _,
        fun j hj => absurd hj (Nat.not_lt_zero j), fun j _ => hm.gs j⟩
      · show st.wg + st.fn.length + st.doneCount = st.fn.length
        rw [hd, hm.wg]; omega
      · show st.log.length = st.pubCount
        rw [hp, hm.log]; rfl
  · rename_i i hmain
    rw [hmain] at hm
    simp only at hm
    obtain ⟨hst, hop, hile, hlt, hge⟩ := hm
    split at hs
    · rename_i hi
      cases hs
      have hpc : (st.gs i).pc = .absent := hge i (Nat.le_refl i)
      have hgi := h.gok i
      refine { gok := ?_, outside := ?_, origin := ?_, abn := ?_, logged := ?_, main := ?_,
               crash := ?_ }
      · intro j
        by_cases hj : j = i
        · subst hj
          show GInv ((st.setG j _).gs j)
          rw [setG_gs_self]
          exact ⟨by rw [hgi.calls, hpc]; rfl, by rw [hgi.pubs, hpc]; rfl,
            by rw [hgi.dones, hpc]; rfl, by have := hgi.ret; rw [hpc] at this; exact this⟩
        · show GInv ((st.setG i _).gs j)
          rw [setG_gs_ne _ _ _ _ hj]; exact h.gok j
      · intro j hj
        have hj' : st.fn.length ≤ j := hj
        show ((st.setG i _).gs j).pc = _
        rw [setG_gs_ne _ _ _ _ (by omega : j ≠ i)]; exact h.outside j hj
      · intro j v hv
        have : (st.gs j).ret = some v := by
          by_cases hj : j = i
          · subst hj; simpa [setG_gs] using hv
          · simpa [setG_gs, hj] using hv
        exact h.origin j v this
      · intro j hj
        by_cases hji : j = i
        · subst hji; simp [setG_gs, GoPc.abnormal] at hj
        · exact h.abn j (by simpa [setG_gs, hji] using hj)
      · intro p hp
        have := h.logged p hp
        by_cases hj : p.1 = i
        · simpa [setG_gs, hj] using this
        · simpa [setG_gs, hj] using this
      · show Started _ ∧ Open _ ∧ i + 1 ≤ st.fn.length ∧ _ ∧ _
        refine ⟨⟨hst.pos, hst.cap, hst.made, ?_, ?_⟩, ⟨hop.stop, hop.closes, hop.recvd, hop.result⟩,
          hi, ?_, ?_⟩
        · have e : (State.doneCount
              { st.setG i { st.gs i with pc := .created } with main := .spawn (i + 1) })
              = st.doneCount :=
            sumTo_congr _ _ _ (fun j _ => by
              by_cases hj : j = i
              · subst hj; simp [setG_gs]
              · simp [setG_gs, hj])
          rw [e]; exact hst.wg
        · have e : (State.pubCount
              { st.setG i { st.gs i with pc := .created } with main := .spawn (i + 1) })
              = st.pubCount :=
            sumTo_congr _ _ _ (fun j _ => by
              by_cases hj : j = i
              · subst hj; simp [setG_gs]
              · simp [setG_gs, hj])
          rw [e]; exact hst.log
        · intro j hj
          by_cases hji : j = i
          · subst hji; simp [setG_gs]
          · simpa [setG_gs, hji] using hlt j (by omega)
        · intro j hj
          have hji : j ≠ i := by omega
          simpa [setG_gs, hji] using hge j (by omega)
      · intro hc
        obtain ⟨j, hj⟩ := h.crash hc
        refine ⟨j, ?_⟩
        have hji : j ≠ i := by intro e; subst e; rw [hpc] at hj; cases hj
        simpa [setG_gs, hji] using hj
    · rename_i hi
      cases hs
      refine { gok := h.gok, outside := h.outside, origin := h.origin, abn := h.abn,
               logged := h.logged, crash := h.crash, main := ?_ }
      exact ⟨⟨hst.pos, hst.cap, hst.made, hst.wg, hst.log⟩,
        ⟨hop.stop, hop.closes, hop.recvd, hop.result⟩,
        fun j hj => hlt j (by have hj' : j < st.fn.length := hj; omega)⟩
  · rename_i hmain
    rw [hmain] at hm
    simp only at hm
    obtain ⟨hst, hop, hla⟩ := hm
    split at hs
    · rename_i v rest hres
      cases hs
      refine { gok := h.gok, outside := h.outside, origin := h.origin, abn := h.abn,
               logged := h.logged, crash := h.crash, main := ?_ }
      have hr := hop.result
      rw [hres] at hr
      have hr' : v :: rest = st.log.map Prod.snd := Option.some.inj hr
      refine ⟨⟨hst.pos, hst.cap, hst.made, hst.wg, hst.log⟩, hla, ⟨?_, ?_⟩, hop.stop, hop.closes⟩
      · show st.recvd + 1 = 1
        rw [hop.recvd]
      · cases hl : st.log with
        | nil => rw [hl] at hr'; cases hr'
        | cons p l =>
          rw [hl] at hr'
          simp only [List.map_cons, List.cons.injEq] at hr'
          obtain ⟨p1, p2⟩ := p
          refine ⟨p1, l, ?_, ?_⟩
          · rw [hr'.1]
          · show some rest = _
            rw [hr'.2]
    · cases hs
  · rename_i r hmain
    rw [hmain] at hm
    simp only at hm
    obtain ⟨hst, hla, hfi, hstop, hcl⟩ := hm
    split at hs
    · cases hs
      refine { gok := h.gok, outside := h.outside, origin := h.origin, abn := h.abn,
               logged := h.logged, crash := h.crash, main := ?_ }
      exact ⟨⟨hst.pos, hst.cap, hst.made, hst.wg, hst.log⟩, hla, ⟨hfi.recvd, hfi.log⟩, rfl,
        by show st.closes + 1 = 1; rw [hcl]⟩
    · rename_i hne
      exact absurd hstop (hne)
  · rename_i r hmain
    rw [hmain] at hm
    simp only at hm
    obtain ⟨hst, hla, hfi, hstop, hcl⟩ := hm
    split at hs
    · rename_i hwg
      cases hs
      refine { gok := h.gok, outside := h.outside, origin := h.origin, abn := h.abn,
               logged := h.logged, crash := h.crash, main := ?_ }
      exact Or.inr ⟨⟨hst.pos, hst.cap, hst.made, hst.wg, hst.log⟩, hla, ⟨hfi.recvd, hfi.log⟩,
        hstop, hcl, hwg⟩
    · cases hs
  · cases hs

theorem go_inv {st st' : State σ ε} (h : Inv st) (i : Nat) (g' : Goroutine σ ε)
    (hgs : st'.gs = (st.setG i g').gs) (hfn : st'.fn = st.fn) (hmain : st'.main = st.main)
    (hcap : st'.cap = st.cap) (hmade : st'.made = st.made) (hstop : st'.stop = st.stop)
    (hcloses : st'.closes = st.closes) (hrecvd : st'.recvd = st.recvd)
    (hcr : st'.crashed = false)
    (hold : (st.gs i).pc ≠ .absent) (hnew : g'.pc ≠ .absent) (hg : GInv g')
    (hret : ∀ v, g'.ret = some v →
      (st.gs i).ret = some v ∨ ∃ t, st.fn.get? i = some t ∧ t.canReturn v)
    (hkeep : ∀ v, (st.gs i).ret = some v → g'.ret = some v)
    (habn : g'.pc.abnormal = true →
      (st.gs i).pc.abnormal = true ∨ ∃ t, st.fn.get? i = some t ∧ t.canAbort)
    (hwg : st'.wg + g'.dones = st.wg + (st.gs i).dones)
    (hdm : (st.gs i).dones ≤ g'.dones)
    (hlog : (st'.log = st.log ∧ st'.result = st.result ∧ g'.pubs = (st.gs i).pubs) ∨
      (∃ buf v, st.result = some buf ∧ st'.result = some (buf ++ [v]) ∧
        st'.log = st.log ++ [(i, v)] ∧ g'.pubs = (st.gs i).pubs + 1 ∧ g'.ret = some v)) :
    Inv st' := by
  have hi : i < st.fn.length := by
    by_contra hge
    exact hold (h.outside i (by omega))
  have hsame : ∀ j, j ≠ i → st'.gs j = st.gs j := fun j hj => by
    rw [hgs]; exact setG_gs_ne st i j g' hj
  have hself : st'.gs i = g' := by rw [hgs]; exact setG_gs_self st i g'
  have hdc : st'.doneCount + (st.gs i).dones = st.doneCount + g'.dones := by
    unfold State.doneCount
    rw [hgs, hfn]
    exact sum_setG Goroutine.dones st i g' _ hi
  have hpc : st'.pubCount + (st.gs i).pubs = st.pubCount + g'.pubs := by
    unfold State.pubCount
    rw [hgs, hfn]
    exact sum_setG Goroutine.pubs st i g' _ hi
  have hloglen : st'.log.length + (st.gs i).pubs = st.log.length + g'.pubs := by
    rcases hlog with ⟨e1, _, e3⟩ | ⟨buf, v, _, _, e3, e4, _⟩
    · rw [e1, e3]
    · rw [e3, e4, List.length_append]; simp; omega
  have hstarted : Started st → Started st' := fun hs =>
    ⟨by rw [hfn]; exact hs.pos, by rw [hcap, hfn]; exact hs.cap, by rw [hmade]; exact hs.made,
     by have := hs.wg; rw [hfn]; omega, by have := hs.log; omega⟩
  have hlaunched : Launched st → Launched st' := fun hl j hj => by
    by_cases hji : j = i
    · subst hji; rw [hself]; exact hnew
    · rw [hsame j hji]; exact hl j (by rw [hfn] at hj; exact hj)
  have hopen : Open st → Open st' := fun ho => by
    refine ⟨by rw [hstop]; exact ho.stop, by rw [hcloses]; exact ho.closes,
      by rw [hrecvd]; exact ho.recvd, ?_⟩
    rcases hlog with ⟨e1, e2, _⟩ | ⟨buf, v, e1, e2, e3, _, _⟩
    · rw [e1, e2]; exact ho.result
    · have := ho.result
      rw [e1] at this
      rw [e2, e3, List.map_append, ← Option.some.inj this]
      rfl
  have hfirst : ∀ r, First st r → First st' r := fun r hf => by
    refine ⟨by rw [hrecvd]; exact hf.recvd, ?_⟩
    obtain ⟨k, rest, hl, hr⟩ := hf.log
    rcases hlog with ⟨e1, e2, _⟩ | ⟨buf, v, e1, e2, e3, _, _⟩
    · exact ⟨k, rest, by rw [e1]; exact hl, by rw [e2]; exact hr⟩
    · refine ⟨k, rest ++ [(i, v)], by rw [e3, hl]; rfl, ?_⟩
      rw [e1] at hr
      rw [e2, List.map_append, ← Option.some.inj hr]
      rfl
  refine { gok := ?_, outside := ?_, origin := ?_, abn := ?_, logged := ?_, main := ?_,
           crash := ?_ }
  · intro j
    by_cases hji : j = i
    · subst hji; rw [hself]; exact hg
    · rw [hsame j hji]; exact h.gok j
  · intro j hj
    rw [hfn] at hj
    rw [hsame j (by omega)]
    exact h.outside j hj
  · intro j v hv
    rw [hfn]
    by_cases hji : j = i
    · subst hji
      rw [hself] at hv
      rcases hret v hv with h1 | h1
      · exact h.origin j v h1
      · exact h1
    · rw [hsame j hji] at hv
      exact h.origin j v hv
  · intro j hj
    rw [hfn]
    by_cases hji : j = i
    · subst hji
      rw [hself] at hj
      rcases habn hj with h1 | h1
      · exact h.abn j h1
      · exact h1
    · rw [hsame j hji] at hj
      exact h.abn j hj
  · intro p hp
    have hold_entry : ∀ q, q ∈ st.log → (st'.gs q.1).ret = some q.2 := fun q hq => by
      have := h.logged q hq
      by_cases hqi : q.1 = i
      · rw [hqi, hself]; rw [hqi] at this; exact hkeep _ this
      · rw [hsame _ hqi]; exact this
    rcases hlog with ⟨e1, _, _⟩ | ⟨buf, v, _, _, e3, _, e5⟩
    · rw [e1] at hp; exact hold_entry p hp
    · rw [e3, List.mem_append] at hp
      rcases hp with hp | hp
      · exact hold_entry p hp
      · rw [List.mem_singleton] at hp
        subst hp
        show (st'.gs i).ret = some v
        rw [hself]; exact e5
  · have hm := h.main
    unfold MainInv at hm ⊢
    rw [hmain]
    cases hmp : st.main with
    | idle =>
      rw [hmp] at hm
      exact absurd (hm.gs i) hold
    | spawn k =>
      rw [hmp] at hm
      obtain ⟨hs, ho, hk, hlt, hge⟩ := hm
      refine ⟨hstarted hs, hopen ho, by rw [hfn]; exact hk, ?_, ?_⟩
      · intro j hj
        by_cases hji : j = i
        · subst hji; rw [hself]; exact hnew
        · rw [hsame j hji]; exact hlt j hj
      · intro j hj
        have hji : j ≠ i := by
          intro e; subst e; exact hold (hge j hj)
        rw [hsame j hji]; exact hge j hj
    | recv =>
      rw [hmp] at hm
      exact ⟨hstarted hm.1, hopen hm.2.1, hlaunched hm.2.2⟩
    | closing r =>
      rw [hmp] at hm
      obtain ⟨hs, hl, hf, h1, h2⟩ := hm
      exact ⟨hstarted hs, hlaunched hl, hfirst r hf, by rw [hstop]; exact h1,
        by rw [hcloses]; exact h2⟩
    | waiting r =>
      rw [hmp] at hm
      obtain ⟨hs, hl, hf, h1, h2⟩ := hm
      exact ⟨hstarted hs, hlaunched hl, hfirst r hf, by rw [hstop]; exact h1,
        by rw [hcloses]; exact h2⟩
    | done r =>
      rw [hmp] at hm
      rcases hm with ⟨hp, _, _⟩ | ⟨hs, hl, hf, h1, h2, h3⟩
      · exact absurd (hp.gs i) hold
      · exact Or.inr ⟨hstarted hs, hlaunched hl, hfirst r hf, by rw [hstop]; exact h1,
          by rw [hcloses]; exact h2, by omega⟩
  · intro hc
    rw [hcr] at hc
    cases hc

theorem GoPc.donesAt_le {σ ε : Type} (pc : GoPc σ ε) : pc.donesAt ≤ 1 := by
  cases pc <;> simp [GoPc.donesAt]

theorem GoPc.pubsAt_le {σ ε : Type} (pc : GoPc σ ε) : pc.pubsAt ≤ 1 := by
  cases pc <;> simp [GoPc.pubsAt]

theorem GoPc.callsAt_le {σ ε : Type} (pc : GoPc σ ε) : pc.callsAt ≤ 1 := by
  cases pc <;> simp [GoPc.callsAt]

theorem Inv.index_lt {st : State σ ε} (h : Inv st) {i : Nat} (hpc : (st.gs i).pc ≠ .absent) :
    i < st.fn.length := by
  by_contra hge
  exact hpc (h.outside i (by omega))

theorem Inv.started {st : State σ ε} (h : Inv st) {i : Nat} (hpc : (st.gs i).pc ≠ .absent) :
    Started st := by
  have hm := h.main
  unfold MainInv at hm
  cases hmp : st.main with
  | idle => rw [hmp] at hm; exact absurd (hm.gs i) hpc
  | spawn k => rw [hmp] at hm; exact hm.1
  | recv => rw [hmp] at hm; exact hm.1
  | closing r => rw [hmp] at hm; exact hm.1
  | waiting r => rw [hmp] at hm; exact hm.1
  | done r =>
    rw [hmp] at hm
    rcases hm with ⟨hp, _, _⟩ | hm
    · exact absurd (hp.gs i) hpc
    · exact hm.1

/-- While a goroutine has not run its deferred `wg.Done()`, the counter is positive. -/
theorem Inv.wg_pos {st : State σ ε} (h : Inv st) {i : Nat} (hpc : (st.gs i).pc ≠ .absent)
    (hd : (st.gs i).pc.donesAt = 0) : 0 < st.wg := by
  have hs := h.started hpc
  have hi := h.index_lt hpc
  have hlt : st.doneCount < st.fn.length :=
    sumTo_lt _ i _ hi (by show (st.gs i).dones = 0; rw [(h.gok i).dones, hd])
      (fun j _ => by show (st.gs j).dones ≤ 1; rw [(h.gok j).dones]; exact GoPc.donesAt_le _)
  have := hs.wg
  omega

/-- While a goroutine has not sent its result, the buffer of `result` has room. -/
theorem Inv.room {st : State σ ε} (h : Inv st) {i : Nat} (hpc : (st.gs i).pc ≠ .absent)
    (hd : (st.gs i).pc.pubsAt = 0) : st.log.length < st.cap := by
  have hs := h.started hpc
  have hi := h.index_lt hpc
  have hlt : st.pubCount < st.fn.length :=
    sumTo_lt _ i _ hi (by show (st.gs i).pubs = 0; rw [(h.gok i).pubs, hd])
      (fun j _ => by show (st.gs j).pubs ≤ 1; rw [(h.gok j).pubs]; exact GoPc.pubsAt_le _)
  have := hs.log
  have := hs.cap
  omega

theorem Inv.crashNow {st : State σ ε} (h : Inv st) {i : Nat} (hpc : (st.gs i).pc = .fatal) :
    Inv { st with crashed := true } := by
  have hne : (st.gs i).pc ≠ .absent := by rw [hpc]; intro e; cases e
  refine { gok := h.gok, outside := h.outside, origin := h.origin, abn := h.abn,
           logged := h.logged, main := ?_, crash := fun _ => ⟨i, hpc⟩ }
  have hm := h.main
  unfold MainInv at hm ⊢
  show match st.main with
    | .idle => _
    | .spawn k => _
    | .recv => _
    | .closing r => _
    | .waiting r => _
    | .done r => _
  cases hmp : st.main with
  | idle => rw [hmp] at hm; exact absurd (hm.gs i) hne
  | spawn k =>
    rw [hmp] at hm
    obtain ⟨hs, ho, hk, hlt, hge⟩ := hm
    exact ⟨⟨hs.pos, hs.cap, hs.made, hs.wg, hs.log⟩, ⟨ho.stop, ho.closes, ho.recvd, ho.result⟩,
      hk, hlt, hge⟩
  | recv =>
    rw [hmp] at hm
    obtain ⟨hs, ho, hl⟩ := hm
    exact ⟨⟨hs.pos, hs.cap, hs.made, hs.wg, hs.log⟩, ⟨ho.stop, ho.closes, ho.recvd, ho.result⟩,
      hl⟩
  | closing r =>
    rw [hmp] at hm
    obtain ⟨hs, hl, hf, h1, h2⟩ := hm
    exact ⟨⟨hs.pos, hs.cap, hs.made, hs.wg, hs.log⟩, hl, ⟨hf.recvd, hf.log⟩, h1, h2⟩
  | waiting r =>
    rw [hmp] at hm
    obtain ⟨hs, hl, hf, h1, h2⟩ := hm
    exact ⟨⟨hs.pos, hs.cap, hs.made, hs.wg, hs.log⟩, hl, ⟨hf.recvd, hf.log⟩, h1, h2⟩
  | done r =>
    rw [hmp] at hm
    rcases hm with ⟨hp, _, _⟩ | ⟨hs, hl, hf, h1, h2, h3⟩
    · exact absurd (hp.gs i) hne
    · exact Or.inr ⟨⟨hs.pos, hs.cap, hs.made, hs.wg, hs.log⟩, hl, ⟨hf.recvd, hf.log⟩, h1, h2, h3⟩

theorem wgDone_inv {st : State σ ε} (h : Inv st) (hc : st.crashed = false) (i : Nat)
    (next : GoPc σ ε) (hpc : (st.gs i).pc ≠ .absent) (hd : (st.gs i).pc.donesAt = 0)
    (hn : next ≠ .absent)
    (hcalls : next.callsAt = (st.gs i).pc.callsAt) (hpubs : next.pubsAt = (st.gs i).pc.pubsAt)
    (hdn : next.donesAt = 1) (hret : (st.gs i).pc.retAt (st.gs i).ret → next.retAt (st.gs i).ret)
    (habn : next.abnormal = true → (st.gs i).pc.abnormal = true) :
    Inv (wgDone st i next) := by
  have hpos := h.wg_pos hpc hd
  have hgi := h.gok i
  unfold wgDone
  rw [if_neg (by omega)]
  refine go_inv h i { st.gs i with pc := next, dones := (st.gs i).dones + 1 }
    rfl rfl rfl rfl rfl rfl rfl rfl hc hpc hn ?_ (fun v hv => Or.inl hv) (fun v hv => hv)
    (fun hx => Or.inl (habn hx)) ?_ (Nat.le_succ _) (Or.inl ⟨rfl, rfl, rfl⟩)
  · exact ⟨by show (st.gs i).calls = next.callsAt; rw [hcalls]; exact hgi.calls,
      by show (st.gs i).pubs = next.pubsAt; rw [hpubs]; exact hgi.pubs,
      by show (st.gs i).dones + 1 = next.donesAt; rw [hdn, hgi.dones, hd],
      hret hgi.ret⟩
  · show st.wg - 1 + ((st.gs i).dones + 1) = st.wg + (st.gs i).dones
    omega

theorem stepGo_inv {st st' : State σ ε} (h : Inv st) (hc : st.crashed = false) (i : Nat)
    (hs : stepGo st i = some st') : Inv st' := by
  have hgi := h.gok i
  unfold stepGo at hs
  split at hs
  · cases hs
  · rename_i hpc
    have hne : (st.gs i).pc ≠ .absent := by rw [hpc]; intro e; cases e
    split at hs
    · cases hs
    · rename_i t ht
      cases hs
      have hr := hgi.ret
      rw [hpc] at hr
      refine go_inv h i _ rfl rfl rfl rfl rfl rfl rfl rfl hc hne (by intro e; cases e) ?_
        (fun v hv => Or.inl hv) (fun v hv => hv) (fun hx => by cases hx) rfl (Nat.le_refl _)
        (Or.inl ⟨rfl, rfl, rfl⟩)
      exact ⟨by show (st.gs i).calls + 1 = 1; rw [hgi.calls, hpc]; rfl,
        by show (st.gs i).pubs = 0; rw [hgi.pubs, hpc]; rfl,
        by show (st.gs i).dones = 0; rw [hgi.dones, hpc]; rfl, hr⟩
  · rename_i s hpc
    have hne : (st.gs i).pc ≠ .absent := by rw [hpc]; intro e; cases e
    have hr := hgi.ret
    rw [hpc] at hr
    have hr' : (st.gs i).ret = none := hr
    have hcl : (st.gs i).calls = 1 := by rw [hgi.calls, hpc]; rfl
    have hpb : (st.gs i).pubs = 0 := by rw [hgi.pubs, hpc]; rfl
    have hdn : (st.gs i).dones = 0 := by rw [hgi.dones, hpc]; rfl
    split at hs
    · cases hs
    · rename_i t ht
      split at hs
      · rename_i s' hb
        cases hs
        exact go_inv h i _ rfl rfl rfl rfl rfl rfl rfl rfl hc hne (by intro e; cases e)
          ⟨hcl, hpb, hdn, hr'⟩
          (fun v hv => Or.inl hv) (fun v hv => hv) (fun hx => by cases hx) rfl (Nat.le_refl _)
          (Or.inl ⟨rfl, rfl, rfl⟩)
      · rename_i v hb
        cases hs
        exact go_inv h i _ rfl rfl rfl rfl rfl rfl rfl rfl hc hne (by intro e; cases e)
          ⟨hcl, hpb, hdn, rfl⟩
          (fun w hw => Or.inr ⟨t, ht, s, st.stopClosed, by
            have : some v = some w := hw
            rw [← Option.some.inj this]; exact hb⟩)
          (fun w hw => by rw [hr'] at hw; cases hw) (fun hx => by cases hx) rfl (Nat.le_refl _)
          (Or.inl ⟨rfl, rfl, rfl⟩)
      · rename_i hb
        cases hs
        exact go_inv h i _ rfl rfl rfl rfl rfl rfl rfl rfl hc hne (by intro e; cases e)
          ⟨hcl, hpb, hdn, hr'⟩
          (fun v hv => Or.inl hv) (fun v hv => hv)
          (fun _ => Or.inr ⟨t, ht, s, st.stopClosed, Or.inl hb⟩) rfl (Nat.le_refl _)
          (Or.inl ⟨rfl, rfl, rfl⟩)
      · rename_i hb
        cases hs
        exact go_inv h i _ rfl rfl rfl rfl rfl rfl rfl rfl hc hne (by intro e; cases e)
          ⟨hcl, hpb, hdn, hr'⟩
          (fun v hv => Or.inl hv) (fun v hv => hv)
          (fun _ => Or.inr ⟨t, ht, s, st.stopClosed, Or.inr hb⟩) rfl (Nat.le_refl _)
          (Or.inl ⟨rfl, rfl, rfl⟩)
  · rename_i v hpc
    have hne : (st.gs i).pc ≠ .absent := by rw [hpc]; intro e; cases e
    have hr := hgi.ret
    rw [hpc] at hr
    have hr' : (st.gs i).ret = some v := hr
    split at hs
    · cases hs
    · rename_i buf hres
      split at hs
      · cases hs
        exact go_inv h i _ rfl rfl rfl rfl rfl rfl rfl rfl hc hne (by intro e; cases e)
          ⟨by show (st.gs i).calls = 1; rw [hgi.calls, hpc]; rfl,
           by show (st.gs i).pubs + 1 = 1; rw [hgi.pubs, hpc]; rfl,
           by show (st.gs i).dones = 0; rw [hgi.dones, hpc]; rfl, ⟨v, hr'⟩⟩
          (fun w hw => Or.inl hw) (fun w hw => hw) (fun hx => by cases hx) rfl (Nat.le_refl _)
          (Or.inr ⟨buf, v, hres, rfl, rfl, rfl, hr'⟩)
      · cases hs
  · rename_i hpc
    have hne : (st.gs i).pc ≠ .absent := by rw [hpc]; intro e; cases e
    cases hs
    exact wgDone_inv h hc i .exited hne (by rw [hpc]; rfl) (by intro e; cases e)
      (by rw [hpc]; rfl) (by rw [hpc]; rfl) rfl (by rw [hpc]; exact fun x => x)
      (fun hx => by cases hx)
  · rename_i f hpc
    have hne : (st.gs i).pc ≠ .absent := by rw [hpc]; intro e; cases e
    cases hs
    cases f with
    | true =>
      exact wgDone_inv h hc i .fatal hne (by rw [hpc]; rfl) (by intro e; cases e)
       (by rw [hpc]; rfl) (by rw [hpc]; rfl) rfl (by rw [hpc]; exact fun x => x)
       (fun _ => by rw [hpc]; rfl)
    | false =>
      exact wgDone_inv h hc i .aborted hne (by rw [hpc]; rfl) (by intro e; cases e)
       (by rw [hpc]; rfl) (by rw [hpc]; rfl) rfl (by rw [hpc]; exact fun x => x)
       (fun _ => by rw [hpc]; rfl)
  · cases hs
  · cases hs
  · rename_i hpc
    cases hs
    exact h.crashNow hpc

theorem init_inv (g : Group σ ε) : Inv (init g) :=
  { gok := fun _ => ⟨rfl, rfl, rfl, rfl⟩
    outside := fun _ _ => rfl
    origin := fun _ _ hv => by cases hv
    abn := fun _ hx => by cases hx
    logged := fun _ hp => by cases hp
    main := ⟨fun _ => rfl, rfl, rfl, rfl, rfl, rfl, rfl, rfl, rfl⟩
    crash := fun hc => by cases hc }

theorem step_live {st st' : State σ ε} {a : Action} (hs : step st a = some st') :
    st.crashed = false := by
  unfold step at hs
  cases hc : st.crashed with
  | false => rfl
  | true => rw [hc] at hs; simp at hs

theorem step_inv {st st' : State σ ε} {a : Action} (h : Inv st) (hs : step st a = some st') :
    Inv st' := by
  have hc := step_live hs
  unfold step at hs
  rw [hc] at hs
  cases a with
  | main => exact stepMain_inv h hs
  | go i => exact stepGo_inv h hc i hs

theorem stepMain_fn {st st' : State σ ε} (hs : stepMain st = some st') : st'.fn = st.fn := by
  unfold stepMain at hs
  repeat' split at hs
  all_goals first
    | cases hs; rfl
    | cases hs

theorem stepGo_fn {st st' : State σ ε} {i : Nat} (hs : stepGo st i = some st') :
    st'.fn = st.fn := by
  unfold stepGo wgDone at hs
  repeat' split at hs
  all_goals first
    | cases hs; rfl
    | cases hs

theorem step_fn {st st' : State σ ε} {a : Action} (hs : step st a = some st') :
    st'.fn = st.fn := by
  have hc := step_live hs
  unfold step at hs
  rw [hc] at hs
  cases a with
  | main => exact stepMain_fn hs
  | go i => exact stepGo_fn hs

theorem exec_inv {st st' : State σ ε} (sched : List Action) (h : Inv st)
    (hs : exec st sched = some st') : Inv st' ∧ st'.fn = st.fn := by
  induction sched generalizing st with
  | nil =>
    cases hs
    exact ⟨h, rfl⟩
  | cons a rest ih =>
    unfold exec at hs
    cases hstep : step st a with
    | none => rw [hstep] at hs; cases hs
    | some mid =>
      rw [hstep] at hs
      have := ih (step_inv h hstep) hs
      exact ⟨this.1, by rw [this.2, step_fn hstep]⟩

theorem Run_inv {g : Group σ ε} {sched : List Action} {st : State σ ε}
    (hrun : g.Run sched = some st) : Inv st ∧ st.fn = g.fn :=
  exec_inv sched (init_inv g) hrun

theorem returned_iff {st : State σ ε} {r : Option ε} :
    st.returned = some r ↔ st.main = .done r := by
  unfold State.returned
  cases st.main <;> simp

theorem GoPc.finished_of_dones {pc : GoPc σ ε} (h : pc.donesAt = 1) : pc.finished = true := by
  cases pc <;> simp [GoPc.donesAt] at h <;> rfl

theorem GoPc.exited_of_finished {pc : GoPc σ ε} (h : pc.finished = true)
    (hn : pc.abnormal = false) : pc = .exited := by
  cases pc <;> simp [GoPc.finished, GoPc.abnormal] at h hn ⊢

/-- What holds once `Run` has returned from a group with at least one task. -/
theorem Inv.at_done {st : State σ ε} (h : Inv st) {r : Option ε} (hd : st.main = .done r)
    (hpos : 1 ≤ st.fn.length) :
    Started st ∧ Launched st ∧ First st r ∧ st.stop = some true ∧ st.closes = 1 ∧ st.wg = 0 := by
  have hm := h.main
  unfold MainInv at hm
  rw [hd] at hm
  rcases hm with ⟨_, hnil, _⟩ | hm
  · rw [hnil] at hpos; simp at hpos
  · exact hm

theorem Inv.all_finished {st : State σ ε} (h : Inv st) (hs : Started st) (hwg : st.wg = 0) :
    ∀ i, i < st.fn.length → (st.gs i).pc.finished = true := by
  intro i hi
  have hsum : st.doneCount = st.fn.length := by have := hs.wg; omega
  have := sumTo_full _ _ (fun j _ => by
    show (st.gs j).dones ≤ 1; rw [(h.gok j).dones]; exact GoPc.donesAt_le _) hsum i hi
  have hd : (st.gs i).dones = 1 := this
  rw [(h.gok i).dones] at hd
  exact GoPc.finished_of_dones hd

/-- The three situations of `stop` in a reachable state. -/
theorem Inv.stop_cases {st : State σ ε} (h : Inv st) :
    (st.stop = none ∧ st.closes = 0 ∧ st.recvd = 0 ∧ st.made = 0) ∨
    (st.stop = some false ∧ st.closes = 0 ∧ st.made = 2) ∨
    (st.stop = some true ∧ st.closes = 1 ∧ st.made = 2 ∧ ∃ r, First st r) := by
  have hm := h.main
  unfold MainInv at hm
  cases hmp : st.main with
  | idle => rw [hmp] at hm; exact Or.inl ⟨hm.stop, hm.closes, hm.recvd, hm.made⟩
  | spawn k => rw [hmp] at hm; exact Or.inr (Or.inl ⟨hm.2.1.stop, hm.2.1.closes, hm.1.made⟩)
  | recv => rw [hmp] at hm; exact Or.inr (Or.inl ⟨hm.2.1.stop, hm.2.1.closes, hm.1.made⟩)
  | closing r => rw [hmp] at hm; exact Or.inr (Or.inl ⟨hm.2.2.2.1, hm.2.2.2.2, hm.1.made⟩)
  | waiting r =>
    rw [hmp] at hm
    exact Or.inr (Or.inr ⟨hm.2.2.2.1, hm.2.2.2.2, hm.1.made, r, hm.2.2.1⟩)
  | done r =>
    rw [hmp] at hm
    rcases hm with ⟨hp, _, _⟩ | hm
    · exact Or.inl ⟨hp.stop, hp.closes, hp.recvd, hp.made⟩
    · exact Or.inr (Or.inr ⟨hm.2.2.2.1, hm.2.2.2.2.1, hm.1.made, r, hm.2.2.1⟩)

theorem stepGo_stop {st st' : State σ ε} {i : Nat} (hs : stepGo st i = some st') :
    st'.stop = st.stop ∧ st'.closes = st.closes ∧ st'.main = st.main := by
  unfold stepGo wgDone at hs
  repeat' split at hs
  all_goals first
    | cases hs; exact ⟨rfl, rfl, rfl⟩
    | cases hs

theorem stepMain_closes {st st' : State σ ε} (hs : stepMain st = some st')
    (h1 : st'.stopClosed = true) (h2 : st.stopClosed = false) :
    ∃ r, st.main = .closing r ∧ st'.closes = st.closes + 1 := by
  unfold stepMain at hs
  split at hs
  · split at hs
    · cases hs; exact Bool.noConfusion (h1.symm.trans h2)
    · cases hs; exact Bool.noConfusion (show false = true from h1)
  · split at hs
    · cases hs; exact Bool.noConfusion (h1.symm.trans h2)
    · cases hs; exact Bool.noConfusion (h1.symm.trans h2)
  · split at hs
    · cases hs; exact Bool.noConfusion (h1.symm.trans h2)
    · cases hs
  · rename_i r hmain
    split at hs
    · cases hs; exact ⟨r, hmain, rfl⟩
    · cases hs; exact Bool.noConfusion (h1.symm.trans h2)
  · split at hs
    · cases hs; exact Bool.noConfusion (h1.symm.trans h2)
    · cases hs
  · cases hs

/-- The buffer of `result` holds what was sent and not yet received. -/
theorem Inv.buffer {st : State σ ε} (h : Inv st) (hs : Started st) :
    ∃ buf, st.result = some buf ∧ buf.length + st.recvd = st.log.length ∧ st.recvd ≤ 1 := by
  have hopen : Open st → ∃ buf, st.result = some buf ∧ buf.length + st.recvd = st.log.length ∧
      st.recvd ≤ 1 := fun ho =>
    ⟨_, ho.result, by rw [ho.recvd, List.length_map]; rfl, by rw [ho.recvd]; omega⟩
  have hfirst : ∀ r, First st r → ∃ buf, st.result = some buf ∧
      buf.length + st.recvd = st.log.length ∧ st.recvd ≤ 1 := fun r hf => by
    obtain ⟨i, rest, hl, hr⟩ := hf.log
    exact ⟨_, hr, by rw [hf.recvd, hl, List.length_map]; rfl, by rw [hf.recvd]⟩
  have hm := h.main
  unfold MainInv at hm
  cases hmp : st.main with
  | idle =>
    rw [hmp] at hm
    have h1 := hs.made
    rw [hm.made] at h1
    cases h1
  | spawn k => rw [hmp] at hm; exact hopen hm.2.1
  | recv => rw [hmp] at hm; exact hopen hm.2.1
  | closing r => rw [hmp] at hm; exact hfirst r hm.2.2.1
  | waiting r => rw [hmp] at hm; exact hfirst r hm.2.2.1
  | done r =>
    rw [hmp] at hm
    rcases hm with ⟨hp, _, _⟩ | hm
    · have h1 := hs.made
      rw [hp.made] at h1
      cases h1
    · exact hfirst r hm.2.2.1

/-- A goroutine about to send is not blocked: the send step is enabled. -/
theorem Inv.send_enabled {st : State σ ε} (h : Inv st) (hc : st.crashed = false) {i : Nat}
    {v : Option ε} (hpc : (st.gs i).pc = .returned v) :
    ∃ buf, st.result = some buf ∧ buf.length < st.cap ∧
      step st (.go i) = some
        { st.setG i { st.gs i with pc := .sent, pubs := (st.gs i).pubs + 1 } with
            result := some (buf ++ [v]), log := st.log ++ [(i, v)] } := by
  have hne : (st.gs i).pc ≠ .absent := by rw [hpc]; intro e; cases e
  have hroom := h.room hne (by rw [hpc]; rfl)
  obtain ⟨buf, hbuf, hlen, _⟩ := h.buffer (h.started hne)
  have hlt : buf.length < st.cap := by omega
  refine ⟨buf, hbuf, hlt, ?_⟩
  unfold step
  rw [hc]
  simp only [Bool.false_eq_true, if_false]
  unfold stepGo
  rw [hpc]
  simp only
  rw [hbuf]
  simp only
  rw [if_pos hlt]

/-- A goroutine about to run its deferred `wg.Done()` is not blocked and does not panic. -/
theorem Inv.done_enabled {st : State σ ε} (h : Inv st) (hc : st.crashed = false) {i : Nat}
    (hpc : (st.gs i).pc = .sent ∨ ∃ f, (st.gs i).pc = .unwinding f) :
    ∃ next, next.finished = true ∧ 0 < st.wg ∧
      step st (.go i) = some
        { st.setG i { st.gs i with pc := next, dones := (st.gs i).dones + 1 } with
            wg := st.wg - 1 } := by
  have hne : (st.gs i).pc ≠ .absent := by
    rcases hpc with hpc | ⟨f, hpc⟩ <;> rw [hpc] <;> intro e <;> cases e
  have hpos : 0 < st.wg := h.wg_pos hne (by
    rcases hpc with hpc | ⟨f, hpc⟩ <;> rw [hpc] <;> rfl)
  have hwg : ¬ st.wg = 0 := by omega
  rcases hpc with hpc | ⟨f, hpc⟩
  · refine ⟨.exited, rfl, hpos, ?_⟩
    unfold step
    rw [hc]
    simp only [Bool.false_eq_true, if_false]
    unfold stepGo
    rw [hpc]
    simp only
    unfold wgDone
    rw [if_neg hwg]
  · refine ⟨if f then .fatal else .aborted, by cases f <;> rfl, hpos, ?_⟩
    unfold step
    rw [hc]
    simp only [Bool.false_eq_true, if_false]
    unfold stepGo
    rw [hpc]
    simp only
    unfold wgDone
    rw [if_neg hwg]

theorem Phase.next_self (n : Nat) (p : Phase) : Phase.next n p p = true := by
  cases p <;> rfl

theorem stepMain_phase {st st' : State σ ε} (hs : stepMain st = some st') :
    Phase.next st.fn.length st.phase st'.phase = true := by
  unfold stepMain at hs
  unfold State.phase
  split at hs
  · rename_i hmain
    split at hs
    · cases hs
      simp only [Phase.next, decide_eq_true_eq]
      omega
    · cases hs
      simp only [Phase.next, decide_eq_true_eq]
      omega
  · rename_i hmain
    split at hs <;> cases hs <;> rfl
  · rename_i hmain
    split at hs
    · cases hs; rfl
    · cases hs
  · rename_i hmain
    split at hs
    · cases hs; rfl
    · cases hs
      simp only [hmain]
      rfl
  · rename_i hmain
    split at hs
    · cases hs; rfl
    · cases hs
  · cases hs

theorem step_phase {st st' : State σ ε} {a : Action} (hs : step st a = some st') :
    Phase.next st.fn.length st.phase st'.phase = true := by
  have hc := step_live hs
  unfold step at hs
  rw [hc] at hs
  cases a with
  | main => exact stepMain_phase hs
  | go i =>
    have := (stepGo_stop hs).2.2
    unfold State.phase
    rw [this]
    exact Phase.next_self _ _

theorem Inv.started_of_main {st : State σ ε} (h : Inv st) (hpos : 1 ≤ st.fn.length)
    (hmain : st.main ≠ .idle) : Started st := by
  have hm := h.main
  unfold MainInv at hm
  cases hmp : st.main with
  | idle => exact absurd hmp hmain
  | spawn k => rw [hmp] at hm; exact hm.1
  | recv => rw [hmp] at hm; exact hm.1
  | closing r => rw [hmp] at hm; exact hm.1
  | waiting r => rw [hmp] at hm; exact hm.1
  | done r =>
    rw [hmp] at hm
    rcases hm with ⟨_, hnil, _⟩ | hm
    · rw [hnil] at hpos; simp at hpos
    · exact hm.1

theorem Inv.pubCount_le {st : State σ ε} (h : Inv st) : st.pubCount ≤ st.fn.length :=
  sumTo_le _ _ (fun j _ => by
    show (st.gs j).pubs ≤ 1; rw [(h.gok j).pubs]; exact GoPc.pubsAt_le _)

/-- For a goroutine that is gone, the send happened exactly when the task returned a value. -/
theorem Inv.pubs_of_finished {st : State σ ε} (h : Inv st) {i : Nat}
    (hfin : (st.gs i).pc.finished = true) :
    (st.gs i).dones = 1 ∧
    (st.gs i).pubs = (if (st.gs i).pc.abnormal then 0 else 1) ∧
    (st.gs i).pubs = (if (st.gs i).ret.isSome then 1 else 0) ∧
    ((st.gs i).pc.abnormal = false ↔ ∃ v, (st.gs i).ret = some v) := by
  have hg := h.gok i
  have hr := hg.ret
  rw [hg.dones, hg.pubs]
  cases hpc : (st.gs i).pc <;> rw [hpc] at hfin hr <;> simp [GoPc.finished] at hfin
  · obtain ⟨v, hv⟩ := hr
    rw [hv]
    simp [GoPc.donesAt, GoPc.pubsAt, GoPc.abnormal]
  · have hn : (st.gs i).ret = none := hr
    rw [hn]
    simp [GoPc.donesAt, GoPc.pubsAt, GoPc.abnormal]
  · have hn : (st.gs i).ret = none := hr
    rw [hn]
    simp [GoPc.donesAt, GoPc.pubsAt, GoPc.abnormal]

theorem exec_append (st : State σ ε) (a b : List Action) :
    exec st (a ++ b) = (exec st a).bind (fun mid => exec mid b) := by
  induction a generalizing st with
  | nil => rfl
  | cons x rest ih =>
    simp only [List.cons_append, exec]
    cases step st x with
    | none => rfl
    | some mid => exact ih mid

theorem stepGo_other {st st' : State σ ε} {i : Nat} (hs : stepGo st i = some st') :
    ∀ j, j ≠ i → st'.gs j = st.gs j := by
  intro j hj
  unfold stepGo wgDone at hs
  repeat' split at hs
  all_goals first
    | cases hs; rfl
    | cases hs; exact setG_gs_ne _ _ _ _ hj
    | cases hs

theorem stepMain_gs {st st' : State σ ε} (hs : stepMain st = some st') (j : Nat) :
    (st'.gs j).ret = (st.gs j).ret ∧
    ((st'.gs j).pc = (st.gs j).pc ∨ (st'.gs j).pc = .created) := by
  unfold stepMain at hs
  split at hs
  · split at hs <;> cases hs <;> exact ⟨rfl, Or.inl rfl⟩
  · rename_i i _
    split at hs
    · cases hs
      by_cases hj : j = i
      · subst hj
        exact ⟨by show ((st.setG j _).gs j).ret = _; rw [setG_gs_self],
          Or.inr (by show ((st.setG j _).gs j).pc = _; rw [setG_gs_self])⟩
      · exact ⟨by show ((st.setG i _).gs j).ret = _; rw [setG_gs_ne _ _ _ _ hj],
          Or.inl (by show ((st.setG i _).gs j).pc = _; rw [setG_gs_ne _ _ _ _ hj])⟩
    · cases hs; exact ⟨rfl, Or.inl rfl⟩
  · split at hs
    · cases hs; exact ⟨rfl, Or.inl rfl⟩
    · cases hs
  · split at hs <;> cases hs <;> exact ⟨rfl, Or.inl rfl⟩
  · split at hs
    · cases hs; exact ⟨rfl, Or.inl rfl⟩
    · cases hs
  · cases hs

/-- What a step of goroutine `i` can do to its own program counter and recorded return value. -/
theorem stepGo_self {st st' : State σ ε} {i : Nat} {t : Task σ ε}
    (hs : stepGo st i = some st') (ht : st.fn.get? i = some t) :
    (∀ s', (st'.gs i).pc = .running s' →
      ((st.gs i).pc = .created ∧ s' = t.init) ∨
      ∃ s, (st.gs i).pc = .running s ∧ t.body s st.stopClosed = .more s') ∧
    (∀ v, (st'.gs i).ret = some v →
      (st.gs i).ret = some v ∨
      ∃ s, (st.gs i).pc = .running s ∧ t.body s st.stopClosed = .ret v) := by
  unfold stepGo at hs
  split at hs
  · cases hs
  · rename_i hpc
    rw [ht] at hs
    cases hs
    refine ⟨fun s' h' => Or.inl ⟨hpc, ?_⟩, fun v hv => Or.inl ?_⟩
    · have : ((st.setG i _).gs i).pc = .running s' := h'
      rw [setG_gs_self] at this
      cases this
      rfl
    · have : ((st.setG i _).gs i).ret = some v := hv
      rw [setG_gs_self] at this
      exact this
  · rename_i s hpc
    rw [ht] at hs
    simp only at hs
    split at hs
    · rename_i s1 hb
      cases hs
      refine ⟨fun s' h' => Or.inr ⟨s, hpc, ?_⟩, fun v hv => Or.inl ?_⟩
      · have : ((st.setG i _).gs i).pc = .running s' := h'
        rw [setG_gs_self] at this
        cases this
        exact hb
      · have : ((st.setG i _).gs i).ret = some v := hv
        rw [setG_gs_self] at this
        exact this
    · rename_i v1 hb
      cases hs
      refine ⟨fun s' h' => ?_, fun v hv => Or.inr ⟨s, hpc, ?_⟩⟩
      · have : ((st.setG i _).gs i).pc = .running s' := h'
        rw [setG_gs_self] at this
        cases this
      · have : ((st.setG i _).gs i).ret = some v := hv
        rw [setG_gs_self] at this
        cases this
        exact hb
    · cases hs
      refine ⟨fun s' h' => ?_, fun v hv => Or.inl ?_⟩
      · have : ((st.setG i _).gs i).pc = .running s' := h'
        rw [setG_gs_self] at this
        cases this
      · have : ((st.setG i _).gs i).ret = some v := hv
        rw [setG_gs_self] at this
        exact this
    · cases hs
      refine ⟨fun s' h' => ?_, fun v hv => Or.inl ?_⟩
      · have : ((st.setG i _).gs i).pc = .running s' := h'
        rw [setG_gs_self] at this
        cases this
      · have : ((st.setG i _).gs i).ret = some v := hv
        rw [setG_gs_self] at this
        exact this
  · split at hs
    · cases hs
    · split at hs
      · cases hs
        refine ⟨fun s' h' => ?_, fun v hv => Or.inl ?_⟩
        · have : ((st.setG i _).gs i).pc = .running s' := h'
          rw [setG_gs_self] at this
          cases this
        · have : ((st.setG i _).gs i).ret = some v := hv
          rw [setG_gs_self] at this
          exact this
      · cases hs
  · rename_i hpc
    cases hs
    unfold wgDone
    split
    · exact ⟨fun s' h' => (by rw [hpc] at h'; cases h'), fun v hv => Or.inl hv⟩
    · refine ⟨fun s' h' => ?_, fun v hv => Or.inl ?_⟩
      · have : ((st.setG i _).gs i).pc = .running s' := h'
        rw [setG_gs_self] at this
        cases this
      · have : ((st.setG i _).gs i).ret = some v := hv
        rw [setG_gs_self] at this
        exact this
  · rename_i f hpc
    cases hs
    unfold wgDone
    split
    · exact ⟨fun s' h' => (by rw [hpc] at h'; cases h'), fun v hv => Or.inl hv⟩
    · refine ⟨fun s' h' => ?_, fun v hv => Or.inl ?_⟩
      · have : ((st.setG i _).gs i).pc = .running s' := h'
        rw [setG_gs_self] at this
        cases f <;> cases this
      · have : ((st.setG i _).gs i).ret = some v := hv
        rw [setG_gs_self] at this
        exact this
  · cases hs
  · cases hs
  · rename_i hpc
    cases hs
    exact ⟨fun s' h' => (by rw [hpc] at h'; cases h'), fun v hv => Or.inl hv⟩

theorem openOutcome_more {t : Task σ ε} {s s' : σ} {V : Option ε} {k : Nat}
    (hb : t.body s false = .more s') (hk : t.openOutcome k s = .ret V) :
    ∃ k', t.openOutcome k' s' = .ret V := by
  cases k with
  | zero =>
    unfold Task.openOutcome at hk
    rw [hb] at hk
    cases hk
  | succ n =>
    unfold Task.openOutcome at hk
    rw [hb] at hk
    exact ⟨n, hk⟩

theorem openOutcome_ret {t : Task σ ε} {s : σ} {v V : Option ε} {k : Nat}
    (hb : t.body s false = .ret v) (hk : t.openOutcome k s = .ret V) : v = V := by
  cases k with
  | zero =>
    unfold Task.openOutcome at hk
    rw [hb] at hk
    cases hk
    rfl
  | succ n =>
    unfold Task.openOutcome at hk
    rw [hb] at hk
    cases hk
    rfl

/-- In a group with one task, `stop` is open while the task runs. -/
theorem solo_open {st : State σ ε} {t : Task σ ε} (h : Inv st) (hfn : st.fn = [t]) {s : σ}
    (hpc : (st.gs 0).pc = .running s) : st.stopClosed = false := by
  unfold State.stopClosed
  rcases h.stop_cases with ⟨h1, _⟩ | ⟨h1, _⟩ | ⟨_, _, _, r, hf⟩
  · rw [h1]
  · rw [h1]
  · exfalso
    obtain ⟨i, rest, hl, _⟩ := hf.log
    have hri := h.logged (i, r) (by rw [hl]; exact List.mem_cons_self _ _)
    obtain ⟨t', ht', _⟩ := h.origin i r hri
    have hi : i < st.fn.length := (List.get?_eq_some.mp ht').1
    rw [hfn] at hi
    have hi0 : i = 0 := by simpa using hi
    subst hi0
    have hr := (h.gok 0).ret
    rw [hpc] at hr
    have hr' : (st.gs 0).ret = none := hr
    rw [hr'] at hri
    cases hri

theorem solo_step {st st' : State σ ε} {t : Task σ ε} {V : Option ε} {k : Nat} {a : Action}
    (hV : t.openOutcome k t.init = .ret V) (h : Inv st) (hfn : st.fn = [t])
    (hJ : SoloInv t V st) (hs : step st a = some st') : SoloInv t V st' := by
  have hc := step_live hs
  unfold step at hs
  rw [hc] at hs
  cases a with
  | main =>
    obtain ⟨hr, hp⟩ := stepMain_gs hs 0
    refine ⟨fun s hpc => ?_, fun v hv => hJ.2 v (by rw [← hr]; exact hv)⟩
    rcases hp with hp | hp
    · exact hJ.1 s (by rw [← hp]; exact hpc)
    · rw [hp] at hpc; cases hpc
  | go i =>
    by_cases hi : i = 0
    · subst hi
      have ht : st.fn.get? 0 = some t := by rw [hfn]; rfl
      obtain ⟨h1, h2⟩ := stepGo_self hs ht
      refine ⟨fun s' hpc => ?_, fun v hv => ?_⟩
      · rcases h1 s' hpc with ⟨_, hinit⟩ | ⟨s, hps, hb⟩
        · rw [hinit]; exact ⟨k, hV⟩
        · rw [solo_open h hfn hps] at hb
          obtain ⟨k0, hk0⟩ := hJ.1 s hps
          exact openOutcome_more hb hk0
      · rcases h2 v hv with hold | ⟨s, hps, hb⟩
        · exact hJ.2 v hold
        · rw [solo_open h hfn hps] at hb
          obtain ⟨k0, hk0⟩ := hJ.1 s hps
          exact openOutcome_ret hb hk0
    · have := stepGo_other hs 0 (fun e => hi e.symm)
      exact ⟨fun s hpc => hJ.1 s (by rw [← this]; exact hpc),
        fun v hv => hJ.2 v (by rw [← this]; exact hv)⟩

theorem solo_exec {t : Task σ ε} {V : Option ε} {k : Nat}
    (hV : t.openOutcome k t.init = .ret V) (sched : List Action) :
    ∀ (st st' : State σ ε), Inv st → st.fn = [t] → SoloInv t V st →
      exec st sched = some st' → SoloInv t V st' := by
  induction sched with
  | nil =>
    intro st st' _ _ hJ hs
    cases hs
    exact hJ
  | cons a rest ih =>
    intro st st' h hfn hJ hs
    unfold exec at hs
    cases hstep : step st a with
    | none => rw [hstep] at hs; cases hs
    | some mid =>
      rw [hstep] at hs
      exact ih mid st' (step_inv h hstep) (by rw [step_fn hstep]; exact hfn)
        (solo_step hV h hfn hJ hstep) hs

theorem setG_setG (st : State σ ε) (i : Nat) (a b : Goroutine σ ε) :
    (st.setG i a).setG i b = st.setG i b := by
  unfold State.setG
  simp only
  congr 1
  funext j
  by_cases hj : j = i <;> simp [hj]

/-- A running task whose body returns `V` with `stop` open gets there under the schedule that
only runs its goroutine. -/
theorem run_body (t : Task σ ε) (V : Option ε) (k : Nat) :
    ∀ (s : σ) (st : State σ ε), st.fn.get? 0 = some t → st.crashed = false →
      st.stopClosed = false → (st.gs 0).pc = .running s → t.openOutcome k s = .ret V →
      ∃ n, exec st (List.replicate n (.go 0)) =
        some (st.setG 0 { st.gs 0 with pc := .returned V, ret := some V }) := by
  induction k with
  | zero =>
    intro s st ht hc ho hpc hk
    refine ⟨1, ?_⟩
    unfold Task.openOutcome at hk
    simp only [List.replicate, exec, step, hc, stepGo, hpc, ht, ho, hk]
    rfl
  | succ n ih =>
    intro s st ht hc ho hpc hk
    unfold Task.openOutcome at hk
    cases hb : t.body s false with
    | more s' =>
      rw [hb] at hk
      simp only at hk
      obtain ⟨m, hm⟩ := ih s' (st.setG 0 { st.gs 0 with pc := .running s' }) ht hc ho
        (by rw [setG_gs_self]) hk
      refine ⟨m + 1, ?_⟩
      have hstep : step st (.go 0) = some (st.setG 0 { st.gs 0 with pc := .running s' }) := by
        simp only [step, hc, stepGo, hpc, ht, ho, hb]
        rfl
      rw [List.replicate_succ]
      unfold exec
      rw [hstep]
      simp only
      rw [hm, setG_setG, setG_gs_self]
    | ret v =>
      rw [hb] at hk
      cases hk
      refine ⟨1, ?_⟩
      simp only [List.replicate, exec, step, hc, stepGo, hpc, ht, ho, hb]
      rfl
    | goexit => rw [hb] at hk; cases hk
    | panics => rw [hb] at hk; cases hk

/-- How a step of goroutine `i` can make its task's invocation end without a value. -/
theorem stepGo_abn {st st' : State σ ε} {i : Nat} {t : Task σ ε}
    (hs : stepGo st i = some st') (ht : st.fn.get? i = some t)
    (hab : (st'.gs i).pc.abnormal = true) :
    (st.gs i).pc.abnormal = true ∨
    ∃ s, (st.gs i).pc = .running s ∧
      (t.body s st.stopClosed = .goexit ∨ t.body s st.stopClosed = .panics) := by
  unfold stepGo at hs
  split at hs
  · cases hs
  · rw [ht] at hs
    cases hs
    have : ((st.setG i _).gs i).pc.abnormal = true := hab
    rw [setG_gs_self] at this
    cases this
  · rename_i s hpc
    rw [ht] at hs
    simp only at hs
    split at hs
    · cases hs
      have : ((st.setG i _).gs i).pc.abnormal = true := hab
      rw [setG_gs_self] at this
      cases this
    · cases hs
      have : ((st.setG i _).gs i).pc.abnormal = true := hab
      rw [setG_gs_self] at this
      cases this
    · rename_i hb
      exact Or.inr ⟨s, hpc, Or.inl hb⟩
    · rename_i hb
      exact Or.inr ⟨s, hpc, Or.inr hb⟩
  · split at hs
    · cases hs
    · split at hs
      · cases hs
        have : ((st.setG i _).gs i).pc.abnormal = true := hab
        rw [setG_gs_self] at this
        cases this
      · cases hs
  · rename_i hpc
    cases hs
    unfold wgDone at hab
    split at hab
    · have : (st.gs i).pc.abnormal = true := hab
      rw [hpc] at this
      cases this
    · have : ((st.setG i _).gs i).pc.abnormal = true := hab
      rw [setG_gs_self] at this
      cases this
  · rename_i f hpc
    left
    rw [hpc]
    rfl
  · cases hs
  · cases hs
  · rename_i hpc
    left
    rw [hpc]
    rfl

theorem openOutcome_no_abort {t : Task σ ε} {s : σ} {V : Option ε} {k : Nat}
    (hb : t.body s false = .goexit ∨ t.body s false = .panics)
    (hk : t.openOutcome k s = .ret V) : False := by
  cases k with
  | zero =>
    unfold Task.openOutcome at hk
    rcases hb with hb | hb <;> rw [hb] at hk <;> cases hk
  | succ n =>
    unfold Task.openOutcome at hk
    rcases hb with hb | hb <;> rw [hb] at hk <;> cases hk

theorem solo_step_abn {st st' : State σ ε} {t : Task σ ε} {V : Option ε} {a : Action}
    (h : Inv st) (hfn : st.fn = [t]) (hJ : SoloInv t V st)
    (hA : (st.gs 0).pc.abnormal = false) (hs : step st a = some st') :
    (st'.gs 0).pc.abnormal = false := by
  have hc := step_live hs
  unfold step at hs
  rw [hc] at hs
  cases a with
  | main =>
    rcases (stepMain_gs hs 0).2 with hp | hp
    · rw [hp]; exact hA
    · rw [hp]; rfl
  | go i =>
    by_cases hi : i = 0
    · subst hi
      have ht : st.fn.get? 0 = some t := by rw [hfn]; rfl
      cases hab : (st'.gs 0).pc.abnormal with
      | false => rfl
      | true =>
        exfalso
        rcases stepGo_abn hs ht hab with hold | ⟨s, hps, hb⟩
        · rw [hA] at hold; cases hold
        · rw [solo_open h hfn hps] at hb
          obtain ⟨k0, hk0⟩ := hJ.1 s hps
          exact openOutcome_no_abort hb hk0
    · rw [stepGo_other hs 0 (fun e => hi e.symm)]
      exact hA

theorem Solo.step {st st' : State σ ε} {t : Task σ ε} {V : Option ε} {k : Nat} {a : Action}
    (hV : t.openOutcome k t.init = .ret V) (h : Solo t V st) (hs : step st a = some st') :
    Solo t V st' :=
  ⟨step_inv h.inv hs, by rw [step_fn hs]; exact h.fn, solo_step hV h.inv h.fn h.traj hs,
    solo_step_abn h.inv h.fn h.traj h.sane hs⟩

theorem Solo.exec {t : Task σ ε} {V : Option ε} {k : Nat}
    (hV : t.openOutcome k t.init = .ret V) (sched : List Action) :
    ∀ (st st' : State σ ε), Solo t V st → exec st sched = some st' → Solo t V st' := by
  induction sched with
  | nil =>
    intro st st' h hs
    cases hs
    exact h
  | cons a rest ih =>
    intro st st' h hs
    unfold Workgroup.exec at hs
    cases hstep : Workgroup.step st a with
    | none => rw [hstep] at hs; cases hs
    | some mid =>
      rw [hstep] at hs
      exact ih mid st' (h.step hV hstep) hs

theorem Solo.init (t : Task σ ε) (V : Option ε) : Solo t V (init (Group.mk [t])) :=
  ⟨init_inv _, rfl, ⟨fun _ hpc => GoPc.noConfusion hpc, fun _ hv => Option.noConfusion hv⟩, rfl⟩

theorem Solo.live {st : State σ ε} {t : Task σ ε} {V : Option ε} (h : Solo t V st) :
    st.crashed = false := by
  cases hc : st.crashed with
  | false => rfl
  | true =>
    exfalso
    obtain ⟨i, hi⟩ := h.inv.crash hc
    have hlt := h.inv.index_lt (i := i) (by rw [hi]; intro e; cases e)
    rw [h.fn] at hlt
    have hi0 : i = 0 := by simpa using hlt
    subst hi0
    have := h.sane
    rw [hi] at this
    cases this

/-- The value received first is `V`. -/
theorem Solo.value {st : State σ ε} {t : Task σ ε} {V : Option ε} (h : Solo t V st)
    {r : Option ε} (hf : First st r) : r = V := by
  obtain ⟨i, rest, hl, _⟩ := hf.log
  have hri := h.inv.logged (i, r) (by rw [hl]; exact List.mem_cons_self _ _)
  obtain ⟨t', ht', _⟩ := h.inv.origin i r hri
  have hi : i < st.fn.length := (List.get?_eq_some.mp ht').1
  rw [h.fn] at hi
  have hi0 : i = 0 := by simpa using hi
  subst hi0
  exact h.traj.2 r hri

theorem exec_cons {st mid : State σ ε} {a : Action} (hs : step st a = some mid)
    (rest : List Action) : exec st (a :: rest) = exec mid rest := by
  show (match step st a with
    | none => none
    | some st' => exec st' rest) = _
  rw [hs]

theorem step_main_eq {st : State σ ε} (hc : st.crashed = false) :
    step st .main = stepMain st := by
  unfold step
  rw [hc]
  rfl

theorem step_go_eq {st : State σ ε} (hc : st.crashed = false) (i : Nat) :
    step st (.go i) = stepGo st i := by
  unfold step
  rw [hc]
  rfl

theorem CanReturn.after {st mid : State σ ε} {V : Option ε} {a : Action}
    (hs : step st a = some mid) (h : CanReturn V mid) : CanReturn V st := by
  obtain ⟨more, st', he, hr⟩ := h
  exact ⟨a :: more, st', by rw [exec_cons hs]; exact he, hr⟩

theorem CanReturn.after_exec {st mid : State σ ε} {V : Option ε} {sched : List Action}
    (hs : exec st sched = some mid) (h : CanReturn V mid) : CanReturn V st := by
  obtain ⟨more, st', he, hr⟩ := h
  exact ⟨sched ++ more, st', by rw [exec_append, hs]; exact he, hr⟩

theorem Solo.doneCount_eq {st : State σ ε} {t : Task σ ε} {V : Option ε} (h : Solo t V st) :
    st.doneCount = (st.gs 0).dones := by
  unfold State.doneCount
  rw [h.fn]
  simp [sumTo]

theorem Solo.pubCount_eq {st : State σ ε} {t : Task σ ε} {V : Option ε} (h : Solo t V st) :
    st.pubCount = (st.gs 0).pubs := by
  unfold State.pubCount
  rw [h.fn]
  simp [sumTo]

theorem Solo.len {st : State σ ε} {t : Task σ ε} {V : Option ε} (h : Solo t V st) :
    st.fn.length = 1 := by
  rw [h.fn]; rfl

theorem fin_waiting0 {st : State σ ε} {t : Task σ ε} {V r : Option ε} (h : Solo t V st)
    (hm : st.main = .waiting r) (hwg : st.wg = 0) : CanReturn V st := by
  have hmi := h.inv.main
  unfold MainInv at hmi
  rw [hm] at hmi
  have hrv : r = V := h.value hmi.2.2.1
  subst hrv
  have hstep : step st .main = some { st with main := .done r } := by
    rw [step_main_eq h.live]
    unfold stepMain
    rw [hm]
    simp only
    rw [if_pos hwg]
  exact ⟨[.main], { st with main := .done r }, by rw [exec_cons hstep]; rfl, rfl⟩

theorem fin_waiting {st : State σ ε} {t : Task σ ε} {V r : Option ε} {k : Nat}
    (hV : t.openOutcome k t.init = .ret V) (h : Solo t V st)
    (hm : st.main = .waiting r) : CanReturn V st := by
  by_cases hwg : st.wg = 0
  · exact fin_waiting0 h hm hwg
  · have hmi := h.inv.main
    unfold MainInv at hmi
    rw [hm] at hmi
    obtain ⟨hs, _, hf, _, _⟩ := hmi
    have h1 := hs.wg
    rw [h.doneCount_eq, h.len] at h1
    have h2 := hs.log
    rw [h.pubCount_eq] at h2
    obtain ⟨i, rest, hl, _⟩ := hf.log
    rw [hl] at h2
    simp only [List.length_cons] at h2
    have hg := h.inv.gok 0
    have hd := hg.dones
    have hp := hg.pubs
    have hpc : (st.gs 0).pc = .sent := by
      cases hpc : (st.gs 0).pc <;> rw [hpc] at hd hp <;>
        simp [GoPc.donesAt, GoPc.pubsAt] at hd hp <;> omega
    obtain ⟨next, _, _, hstep⟩ := h.inv.done_enabled h.live (Or.inl hpc)
    refine CanReturn.after hstep (fin_waiting0 (h.step hV hstep) (r := r) hm ?_)
    show st.wg - 1 = 0
    omega

theorem fin_closing {st : State σ ε} {t : Task σ ε} {V r : Option ε} {k : Nat}
    (hV : t.openOutcome k t.init = .ret V) (h : Solo t V st)
    (hm : st.main = .closing r) : CanReturn V st := by
  have hmi := h.inv.main
  unfold MainInv at hmi
  rw [hm] at hmi
  obtain ⟨_, _, _, hstop, _⟩ := hmi
  have hstep : step st .main =
      some { st with stop := some true, closes := st.closes + 1, main := .waiting r } := by
    rw [step_main_eq h.live]
    unfold stepMain
    rw [hm]
    simp only
    rw [hstop]
  exact CanReturn.after hstep (fin_waiting hV (h.step hV hstep) (r := r) rfl)

theorem fin_recv_ready {st : State σ ε} {t : Task σ ε} {V v : Option ε} {k : Nat}
    {q : List (Option ε)} (hV : t.openOutcome k t.init = .ret V) (h : Solo t V st)
    (hm : st.main = .recv) (hres : st.result = some (v :: q)) : CanReturn V st := by
  have hstep : step st .main =
      some { st with result := some q, recvd := st.recvd + 1, main := .closing v } := by
    rw [step_main_eq h.live]
    unfold stepMain
    rw [hm]
    simp only
    rw [hres]
  exact CanReturn.after hstep (fin_closing hV (h.step hV hstep) (r := v) rfl)

theorem fin_recv_returned {st : State σ ε} {t : Task σ ε} {V v : Option ε} {k : Nat}
    (hV : t.openOutcome k t.init = .ret V) (h : Solo t V st)
    (hm : st.main = .recv) (hpc : (st.gs 0).pc = .returned v) : CanReturn V st := by
  obtain ⟨buf, _, _, hstep⟩ := h.inv.send_enabled h.live hpc
  refine CanReturn.after hstep ?_
  cases buf with
  | nil => exact fin_recv_ready hV (h.step hV hstep) (v := v) (q := []) hm rfl
  | cons b bs => exact fin_recv_ready hV (h.step hV hstep) (v := b) (q := bs ++ [v]) hm rfl

theorem fin_recv_running {st : State σ ε} {t : Task σ ε} {V : Option ε} {k : Nat} {s : σ}
    (hV : t.openOutcome k t.init = .ret V) (h : Solo t V st)
    (hm : st.main = .recv) (hpc : (st.gs 0).pc = .running s) : CanReturn V st := by
  obtain ⟨k0, hk0⟩ := h.traj.1 s hpc
  obtain ⟨n, hn⟩ := run_body t V k0 s st (by rw [h.fn]; rfl) h.live
    (solo_open h.inv h.fn hpc) hpc hk0
  exact CanReturn.after_exec hn
    (fin_recv_returned hV (Solo.exec hV _ _ _ h hn) (v := V) hm (by rw [setG_gs_self]))

theorem fin_recv {st : State σ ε} {t : Task σ ε} {V : Option ε} {k : Nat}
    (hV : t.openOutcome k t.init = .ret V) (h : Solo t V st)
    (hm : st.main = .recv) : CanReturn V st := by
  have hmi := h.inv.main
  unfold MainInv at hmi
  rw [hm] at hmi
  obtain ⟨hs, ho, hl⟩ := hmi
  have hg := h.inv.gok 0
  have hsane := h.sane
  have hlog := hs.log
  rw [h.pubCount_eq, hg.pubs] at hlog
  have hready : (st.gs 0).pc.pubsAt = 1 → CanReturn V st := by
    intro hp
    rw [hp] at hlog
    have hres := ho.result
    cases hlg : st.log with
    | nil => rw [hlg] at hlog; cases hlog
    | cons x xs =>
      rw [hlg] at hres
      exact fin_recv_ready hV h (v := x.2) (q := xs.map Prod.snd) hm hres
  cases hpc : (st.gs 0).pc with
  | absent => exact absurd hpc (hl 0 (by rw [h.len]; exact Nat.one_pos))
  | created =>
    have hstep : step st (.go 0) = some (st.setG 0
        { st.gs 0 with pc := .running t.init, calls := (st.gs 0).calls + 1 }) := by
      rw [step_go_eq h.live]
      unfold stepGo
      rw [hpc]
      simp only
      rw [h.fn]
      rfl
    exact CanReturn.after hstep
      (fin_recv_running hV (h.step hV hstep) (s := t.init) hm (by rw [setG_gs_self]))
  | running s => exact fin_recv_running hV h hm hpc
  | returned v => exact fin_recv_returned hV h hm hpc
  | sent => exact hready (by rw [hpc]; rfl)
  | exited => exact hready (by rw [hpc]; rfl)
  | unwinding f => rw [hpc] at hsane; cases hsane
  | aborted => rw [hpc] at hsane; cases hsane
  | fatal => rw [hpc] at hsane; cases hsane

theorem fin_spawn_last {st : State σ ε} {t : Task σ ε} {V : Option ε} {k i : Nat}
    (hV : t.openOutcome k t.init = .ret V) (h : Solo t V st)
    (hm : st.main = .spawn i) (hi : ¬ i < st.fn.length) : CanReturn V st := by
  have hstep : step st .main = some { st with main := .recv } := by
    rw [step_main_eq h.live]
    unfold stepMain
    rw [hm]
    simp only
    rw [if_neg hi]
  exact CanReturn.after hstep (fin_recv hV (h.step hV hstep) rfl)

theorem fin_spawn {st : State σ ε} {t : Task σ ε} {V : Option ε} {k i : Nat}
    (hV : t.openOutcome k t.init = .ret V) (h : Solo t V st)
    (hm : st.main = .spawn i) : CanReturn V st := by
  by_cases hi : i < st.fn.length
  · have hstep : step st .main = some
        { st.setG i { st.gs i with pc := .created } with main := .spawn (i + 1) } := by
      rw [step_main_eq h.live]
      unfold stepMain
      rw [hm]
      simp only
      rw [if_pos hi]
    have hlen := h.len
    refine CanReturn.after hstep (fin_spawn_last hV (h.step hV hstep) (i := i + 1) rfl ?_)
    show ¬ i + 1 < st.fn.length
    omega
  · exact fin_spawn_last hV h hm hi

theorem fin_idle {st : State σ ε} {t : Task σ ε} {V : Option ε} {k : Nat}
    (hV : t.openOutcome k t.init = .ret V) (h : Solo t V st)
    (hm : st.main = .idle) : CanReturn V st := by
  have hlen := h.len
  have hstep : step st .main = some
      { st with main := .spawn 0, wg := st.wg + st.fn.length, stop := some false,
                result := some [], cap := st.fn.length, made := st.made + 2 } := by
    rw [step_main_eq h.live]
    unfold stepMain
    rw [hm]
    simp only
    rw [if_neg (by omega)]
  exact CanReturn.after hstep (fin_spawn hV (h.step hV hstep) (i := 0) rfl)

/-- From every reachable state of a group with one task that returns `V`, `Run` can still
return `V`. -/
theorem solo_progress {st : State σ ε} {t : Task σ ε} {V : Option ε} {k : Nat}
    (hV : t.openOutcome k t.init = .ret V) (h : Solo t V st) : CanReturn V st := by
  cases hm : st.main with
  | idle => exact fin_idle hV h hm
  | spawn i => exact fin_spawn hV h hm
  | recv => exact fin_recv hV h hm
  | closing r => exact fin_closing hV h hm
  | waiting r => exact fin_waiting hV h hm
  | done r =>
    have hmi := h.inv.main
    unfold MainInv at hmi
    rw [hm] at hmi
    rcases hmi with ⟨_, hnil, _⟩ | hmi
    · have := h.fn
      rw [hnil] at this
      cases this
    · have hrv : r = V := h.value hmi.2.2.1
      exact ⟨[], st, rfl, by rw [← hrv]; exact returned_iff.mpr hm⟩

/-! ## Lemmas on `Add` and on single steps of a task -/

theorem map_range_congr {α : Type} (f h : Nat → α) (n : Nat) (hfh : ∀ i, i < n → f i = h i) :
    (List.range n).map f = (List.range n).map h :=
  List.map_congr_left (fun i hi => hfh i (List.mem_range.mp hi))

theorem map_range_set {α : Type} (f : Nat → α) (n k : Nat) (v : α) :
    ((List.range n).map f).set k v = (List.range n).map (fun i => if i = k then v else f i) := by
  induction n with
  | zero => rfl
  | succ m ih =>
    rw [List.range_succ, List.map_append, List.map_append]
    by_cases hk : k < m
    · rw [List.set_append_left _ _ (by simpa using hk), ih]
      have : m ≠ k := by omega
      simp [this]
    · rw [List.set_append_right _ _ (by simpa using Nat.le_of_not_lt hk)]
      rw [map_range_congr (fun i => if i = k then v else f i) f m
        (fun i hi => by have : i ≠ k := by omega
                        simp [this])]
      congr 1
      by_cases hkm : k = m
      · subst hkm; simp
      · have h1 : k - m ≠ 0 := by simp at hk; omega
        have h2 : m ≠ k := fun e => hkm e.symm
        simp only [List.length_map, List.length_range, List.map_cons, List.map_nil, h2,
          if_false]
        cases hd : k - m with
        | zero => exact absurd hd h1
        | succ j => rfl

theorem Add_fnOf_self (grow : Nat → Nat) (w : World σ ε) (p : Nat) (fn : Option (Task σ ε)) :
    (Group.Add grow w p fn).fnOf p = w.fnOf p ++ [fn] := by
  unfold Group.Add
  split
  · simp only [World.fnOf, if_true, List.range_succ, List.map_append, List.map_cons,
      List.map_nil, and_self, true_and]
    congr 1
    exact map_range_congr _ _ _ (fun i hi => by
      have : i ≠ (w.hdr p).len := by omega
      simp [this])
  · simp only [World.fnOf, if_true, List.range_succ, List.map_append, List.map_cons,
      List.map_nil, lt_self_iff_false, if_false]
    congr 1
    exact map_range_congr _ _ _ (fun i hi => by simp [hi])

theorem Add_hdr_other (grow : Nat → Nat) (w : World σ ε) (p q : Nat) (fn : Option (Task σ ε))
    (hq : q ≠ p) : (Group.Add grow w p fn).hdr q = w.hdr q := by
  unfold Group.Add
  split <;> simp [hq]

theorem Add_fnOf_other (grow : Nat → Nat) (w : World σ ε) (p q : Nat) (fn : Option (Task σ ε))
    (hwf : w.wf) (hq : q ≠ p) :
    (Group.Add grow w p fn).fnOf q =
      if (w.hdr p).len < (w.hdr p).cap ∧ (w.hdr q).ptr = (w.hdr p).ptr then
        (w.fnOf q).set (w.hdr p).len fn
      else w.fnOf q := by
  have hh := Add_hdr_other grow w p q fn hq
  unfold World.fnOf
  rw [hh]
  unfold Group.Add
  split
  · rename_i hlt
    by_cases hptr : (w.hdr q).ptr = (w.hdr p).ptr
    · rw [if_pos ⟨hlt, hptr⟩, map_range_set]
      exact map_range_congr _ _ _ (fun i _ => by simp [hptr])
    · rw [if_neg (fun h => hptr h.2)]
      exact map_range_congr _ _ _ (fun i _ => by simp [hptr])
  · rename_i hlt
    rw [if_neg (fun h => hlt h.1)]
    have hne : (w.hdr q).ptr ≠ w.next := Nat.ne_of_lt (hwf q)
    exact map_range_congr _ _ _ (fun i _ => by simp [hne])

theorem Add_wf (grow : Nat → Nat) (w : World σ ε) (p : Nat) (fn : Option (Task σ ε))
    (hwf : w.wf) : (Group.Add grow w p fn).wf := by
  intro q
  unfold Group.Add
  split
  · by_cases hq : q = p
    · subst hq; simpa using hwf q
    · simpa [hq] using hwf q
  · by_cases hq : q = p
    · subst hq; simp
    · have := hwf q
      simp only [hq, if_false]
      omega

theorem Add_invoked (grow : Nat → Nat) (w : World σ ε) (p : Nat) (fn : Option (Task σ ε)) :
    (Group.Add grow w p fn).invoked = w.invoked := by
  unfold Group.Add
  split <;> rfl

theorem allFuncs_append {α : Type} (l : List (Option α)) (xs : List α) (x : α)
    (h : allFuncs l = some xs) : allFuncs (l ++ [some x]) = some (xs ++ [x]) := by
  induction l generalizing xs with
  | nil =>
    cases h
    rfl
  | cons a rest ih =>
    cases a with
    | none => cases h
    | some y =>
      simp only [List.cons_append, allFuncs] at h ⊢
      cases hr : allFuncs rest with
      | none => rw [hr] at h; cases h
      | some ys =>
        rw [hr] at h
        cases h
        have e := ih ys hr
        show (match allFuncs (rest ++ [some x]) with
          | none => none
          | some xs => some (y :: xs)) = _
        rw [e]
        rfl

theorem empty_wf : (World.empty : World σ ε).wf := fun _ => Nat.zero_lt_one

theorem assign_wf (w : World σ ε) (dst src : Nat) (h : w.wf) : (w.assign dst src).wf := by
  intro q
  unfold World.assign
  by_cases hq : q = dst
  · simpa [hq] using h src
  · simpa [hq] using h q

theorem aliased_wf : aliased.wf :=
  Add_wf _ _ _ _ (assign_wf _ _ _ (Add_wf _ _ _ _ (Add_wf _ _ _ _ (Add_wf _ _ _ _ empty_wf))))

/-- The call of a task in a reachable state. -/
theorem Inv.call {st : State σ ε} (h : Inv st) (hc : st.crashed = false) {i : Nat}
    {t : Task σ ε} (hpc : (st.gs i).pc = .created) (ht : st.fn.get? i = some t) :
    ∃ st' c, step st (.go i) = some st' ∧ (st'.gs i).pc = .running t.init ∧
      (st'.gs i).calls = 1 ∧ st.stop = some c ∧ st'.stop = some c := by
  have hne : (st.gs i).pc ≠ .absent := by rw [hpc]; intro e; cases e
  have hs := h.started hne
  have hcalls : (st.gs i).calls = 0 := by rw [(h.gok i).calls, hpc]; rfl
  have hstop : ∃ c, st.stop = some c := by
    rcases h.stop_cases with ⟨_, _, _, h4⟩ | ⟨h1, _⟩ | ⟨h1, _⟩
    · have := hs.made; rw [h4] at this; cases this
    · exact ⟨_, h1⟩
    · exact ⟨_, h1⟩
  obtain ⟨c, hcs⟩ := hstop
  rw [step_go_eq hc]
  unfold stepGo
  rw [hpc]
  simp only
  rw [ht]
  exact ⟨_, c, rfl, by rw [setG_gs_self], by rw [setG_gs_self]; show (st.gs i).calls + 1 = 1; rw [hcalls],
    hcs, hcs⟩

theorem step_gone {st : State σ ε} {i : Nat}
    (hpc : (st.gs i).pc = .exited ∨ (st.gs i).pc = .aborted) : step st (.go i) = none := by
  unfold step
  split
  · rfl
  · show stepGo st i = none
    unfold stepGo
    rcases hpc with hpc | hpc <;> rw [hpc]

/-! ## Examples of executions -/

/-- An unrecovered panic in a task: under `panicSched` the deferred `wg.Done()` of the
panicking goroutine lets `wg.Wait()` return, `Run` returns `nil`, and the process is then
aborted. -/
theorem panic_aborts_process :
    (panicScenario.Run panicSched).map (fun st => (st.returned, st.crashed))
      = some (some none, true) := by
  decide

/-- Tasks that wait for `stop`: under `cancelSched` the two waiting tasks see `stop` closed
and return, and `Run` returns `nil` with `stop` closed and the counter at zero. -/
theorem cancel_reaches_all_tasks :
    (cancelScenario.Run cancelSched).map (fun st => (st.returned, st.stopClosed, st.wg))
      = some (some none, true, 0) := by
  decide

/-! ## The claims -/

/-- Claim C1. Take a group with at least one registered task and any schedule after which `Run`
has returned `r`. Then the history of sends on `result` starts with an entry `(i, r)`; task `i`
is registered, `r` is the value its function returned (some slice of its body executes
`return r`), exactly one result has been received, and every later send is still in the buffer
of `result`, unreceived. So `Run` returns, unchanged, the return value of the task whose result
was published first, and never the result of a task that published later. -/
theorem Run_returns_first_published (g : Group σ ε) (sched : List Action) (st : State σ ε)
    (r : Option ε) (hpos : 1 ≤ g.fn.length) (hrun : g.Run sched = some st)
    (hret : st.returned = some r) :
    ∃ i rest t, st.log = (i, r) :: rest ∧ g.fn.get? i = some t ∧ (st.gs i).ret = some r ∧
      t.canReturn r ∧ st.recvd = 1 ∧ st.result = some (rest.map Prod.snd) := by
  obtain ⟨hinv, hfn⟩ := Run_inv hrun
  obtain ⟨_, _, hf, _⟩ := hinv.at_done (returned_iff.mp hret) (by rw [hfn]; exact hpos)
  obtain ⟨i, rest, hl, hres⟩ := hf.log
  have hri := hinv.logged (i, r) (by rw [hl]; exact List.mem_cons_self _ _)
  obtain ⟨t, ht, hcan⟩ := hinv.origin i r hri
  exact ⟨i, rest, t, hl, by rw [← hfn]; exact ht, hri, hcan, hf.recvd, hres⟩

/-- Claim C1 at `scenario` under `scenarioSched`: `Run` returns `errFoo`. -/
theorem Run_returns_first_published_witness :
    ∃ st, scenario.Run scenarioSched = some st ∧ st.returned = some (some errFoo) ∧
      ∃ i rest t, st.log = (i, some errFoo) :: rest ∧ scenario.fn.get? i = some t ∧
        (st.gs i).ret = some (some errFoo) ∧ t.canReturn (some errFoo) ∧ st.recvd = 1 ∧
        st.result = some (rest.map Prod.snd) := by
  have hsome : (scenario.Run scenarioSched).isSome = true := by decide
  obtain ⟨st, hst⟩ := Option.isSome_iff_exists.mp hsome
  have hr : st.returned = some (some errFoo) := by
    have h : (scenario.Run scenarioSched).bind State.returned = some (some errFoo) := by decide
    rw [hst] at h
    exact h
  exact ⟨st, hst, hr,
    Run_returns_first_published scenario scenarioSched st (some errFoo) (by decide) hst hr⟩

/-- Claim C2, amended. Take any group (any number of tasks, zero included) and any schedule after
which `Run` has returned. Then the `WaitGroup` counter is zero and every registered task has
been called once, its invocation is over and its goroutine has run the deferred `wg.Done()`
once: either the task has returned a value, or it has ended by `runtime.Goexit` or by a panic
without returning one. A task whose body never calls `runtime.Goexit` and never panics has
returned. The goroutine of a task that returned or called `runtime.Goexit` has no step left;
only the goroutine of a task that panicked has one, the abort of the process. -/
theorem Run_returns_after_all_tasks (g : Group σ ε) (sched : List Action) (st : State σ ε)
    (r : Option ε) (hrun : g.Run sched = some st) (hret : st.returned = some r) :
    st.wg = 0 ∧ ∀ i t, g.fn.get? i = some t →
      (st.gs i).calls = 1 ∧ (st.gs i).dones = 1 ∧ (st.gs i).pc.finished = true ∧
      (((st.gs i).pc = .exited ∧ ∃ v, (st.gs i).ret = some v ∧ t.canReturn v) ∨
        (((st.gs i).pc = .aborted ∨ (st.gs i).pc = .fatal) ∧ (st.gs i).ret = none ∧
          t.canAbort)) ∧
      (¬ t.canAbort → (st.gs i).pc = .exited ∧ ∃ v, (st.gs i).ret = some v) ∧
      ((st.gs i).pc ≠ .fatal → step st (.go i) = none) := by
  obtain ⟨hinv, hfn⟩ := Run_inv hrun
  have hd := returned_iff.mp hret
  by_cases hpos : 1 ≤ st.fn.length
  · obtain ⟨hs, _, _, _, _, hwg⟩ := hinv.at_done hd hpos
    refine ⟨hwg, fun i t ht => ?_⟩
    rw [← hfn] at ht
    have hi : i < st.fn.length := (List.get?_eq_some.mp ht).1
    have hfin := hinv.all_finished hs hwg i hi
    have hg := hinv.gok i
    have hcases : ((st.gs i).pc = .exited ∧ ∃ v, (st.gs i).ret = some v ∧ t.canReturn v) ∨
        (((st.gs i).pc = .aborted ∨ (st.gs i).pc = .fatal) ∧ (st.gs i).ret = none ∧
          t.canAbort) := by
      have hr := hg.ret
      have hab := hinv.abn i
      cases hpc : (st.gs i).pc <;> rw [hpc] at hfin hr hab <;> simp [GoPc.finished] at hfin
      · obtain ⟨v, hv⟩ := hr
        obtain ⟨t', ht', hcan⟩ := hinv.origin i v hv
        rw [ht] at ht'
        cases ht'
        exact Or.inl ⟨rfl, v, hv, hcan⟩
      · obtain ⟨t', ht', hcan⟩ := hab rfl
        rw [ht] at ht'
        cases ht'
        exact Or.inr ⟨Or.inl rfl, hr, hcan⟩
      · obtain ⟨t', ht', hcan⟩ := hab rfl
        rw [ht] at ht'
        cases ht'
        exact Or.inr ⟨Or.inr rfl, hr, hcan⟩
    refine ⟨?_, ?_, hfin, hcases, ?_, ?_⟩
    · rw [hg.calls]
      cases hpc : (st.gs i).pc <;> rw [hpc] at hfin <;> simp [GoPc.finished] at hfin <;> rfl
    · rw [hg.dones]
      cases hpc : (st.gs i).pc <;> rw [hpc] at hfin <;> simp [GoPc.finished] at hfin <;> rfl
    · intro hna
      rcases hcases with ⟨h1, v, hv, _⟩ | ⟨_, _, hcan⟩
      · exact ⟨h1, v, hv⟩
      · exact absurd hcan hna
    · intro hnf
      rcases hcases with ⟨h1, _⟩ | ⟨h1 | h1, _⟩
      · exact step_gone (Or.inl h1)
      · exact step_gone (Or.inr h1)
      · exact absurd h1 hnf
  · have hm := hinv.main
    unfold MainInv at hm
    rw [hd] at hm
    rcases hm with ⟨hp, hnil, _⟩ | hm
    · refine ⟨hp.wg, fun i t ht => ?_⟩
      rw [← hfn, hnil] at ht
      simp at ht
    · exact absurd hm.1.pos hpos

/-- Claim C2 as stated fails at `quitScenario` under `quitSched`: `Run` has returned `nil`,
task 1 has been called and its goroutine has run `wg.Done()`, yet task 1 has not returned: it
ended by `runtime.Goexit()`. -/
theorem Run_returned_task_not_returned :
    (quitScenario.Run quitSched).map
      (fun st => (st.returned, (st.gs 1).calls, (st.gs 1).dones, (st.gs 1).ret))
      = some (some none, 1, 1, none) := by
  decide

/-- Claim C2, amended, at `scenario`: under `scenarioSched`, `Run` has returned `errFoo` and
both tasks have returned; under `scenarioBlocked`, where task 1 has not finished, the step of
`Run` at `wg.Wait()` is not enabled. -/
theorem Run_returns_after_all_tasks_witness :
    (scenario.Run scenarioBlocked).isNone = true ∧
    ∃ st, scenario.Run scenarioSched = some st ∧ st.returned = some (some errFoo) ∧
      st.wg = 0 ∧ ∀ i t, scenario.fn.get? i = some t →
        (st.gs i).calls = 1 ∧ (st.gs i).dones = 1 ∧ (st.gs i).pc.finished = true ∧
        (((st.gs i).pc = .exited ∧ ∃ v, (st.gs i).ret = some v ∧ t.canReturn v) ∨
          (((st.gs i).pc = .aborted ∨ (st.gs i).pc = .fatal) ∧ (st.gs i).ret = none ∧
            t.canAbort)) ∧
        (¬ t.canAbort → (st.gs i).pc = .exited ∧ ∃ v, (st.gs i).ret = some v) ∧
        ((st.gs i).pc ≠ .fatal → step st (.go i) = none) := by
  have hsome : (scenario.Run scenarioSched).isSome = true := by decide
  obtain ⟨st, hst⟩ := Option.isSome_iff_exists.mp hsome
  have hr : st.returned = some (some errFoo) := by
    have h : (scenario.Run scenarioSched).bind State.returned = some (some errFoo) := by decide
    rw [hst] at h
    exact h
  exact ⟨by decide, st, hst, hr,
    Run_returns_after_all_tasks scenario scenarioSched st (some errFoo) hst hr⟩

/-- Claim C3. In every state reachable from the call of `Run`: `close(stop)` has been executed at
most once; `stop` is observed closed exactly when that one `close` has been executed, so before
it every task observes `stop` open; no step of a task's goroutine changes `stop` or the number
of closes; the step that closes `stop` is a step of `Run` itself, taken at its deferred
`close(stop)`, and at that moment exactly one result has been received and it is the value a
registered task has returned; whenever `stop` is closed, a registered task has returned and
its result has been received; and `close(stop)` never panics: if the process was aborted, a
task panicked. -/
theorem stop_closed_once_by_Run (g : Group σ ε) (sched : List Action) (st : State σ ε)
    (hrun : g.Run sched = some st) :
    st.closes ≤ 1 ∧
    (st.stopClosed = true ↔ st.closes = 1) ∧
    (∀ i st', step st (.go i) = some st' → st'.stop = st.stop ∧ st'.closes = st.closes) ∧
    (∀ a st', step st a = some st' → st'.stopClosed = true → st.stopClosed = false →
      a = .main ∧ st'.closes = st.closes + 1 ∧ st.recvd = 1 ∧
      ∃ i r rest t, st.main = .closing r ∧ st.log = (i, r) :: rest ∧
        g.fn.get? i = some t ∧ (st.gs i).ret = some r) ∧
    (st.stopClosed = true → st.recvd = 1 ∧
      ∃ i r rest t, st.log = (i, r) :: rest ∧ g.fn.get? i = some t ∧ (st.gs i).ret = some r) ∧
    (st.crashed = true → ∃ i t, g.fn.get? i = some t ∧ t.canAbort ∧ (st.gs i).pc = .fatal) := by
  obtain ⟨hinv, hfn⟩ := Run_inv hrun
  have hfirst : ∀ r, First st r → st.recvd = 1 ∧
      ∃ i rest t, st.log = (i, r) :: rest ∧ g.fn.get? i = some t ∧ (st.gs i).ret = some r := by
    intro r hf
    obtain ⟨i, rest, hl, _⟩ := hf.log
    have hri := hinv.logged (i, r) (by rw [hl]; exact List.mem_cons_self _ _)
    obtain ⟨t, ht, _⟩ := hinv.origin i r hri
    exact ⟨hf.recvd, i, rest, t, hl, by rw [← hfn]; exact ht, hri⟩
  refine ⟨?_, ?_, ?_, ?_, ?_, ?_⟩
  · rcases hinv.stop_cases with ⟨_, h2, _⟩ | ⟨_, h2, _⟩ | ⟨_, h2, _⟩ <;> omega
  · unfold State.stopClosed
    rcases hinv.stop_cases with ⟨h1, h2, _⟩ | ⟨h1, h2, _⟩ | ⟨h1, h2, _⟩ <;> rw [h1, h2] <;> simp
  · intro i st' hs
    have hc := step_live hs
    unfold step at hs
    rw [hc] at hs
    exact ⟨(stepGo_stop hs).1, (stepGo_stop hs).2.1⟩
  · intro a st' hs hcl' hop
    have hc := step_live hs
    unfold step at hs
    rw [hc] at hs
    cases a with
    | go i =>
      have := (stepGo_stop hs).1
      unfold State.stopClosed at hcl' hop
      rw [this] at hcl'
      rw [hcl'] at hop
      cases hop
    | main =>
      obtain ⟨r, hmain, hcl⟩ := stepMain_closes hs hcl' hop
      have hm := hinv.main
      unfold MainInv at hm
      rw [hmain] at hm
      obtain ⟨hr, i, rest, t, hl, ht, hri⟩ := hfirst r hm.2.2.1
      exact ⟨rfl, hcl, hr, i, r, rest, t, hmain, hl, ht, hri⟩
  · intro hcl
    unfold State.stopClosed at hcl
    rcases hinv.stop_cases with ⟨h1, _⟩ | ⟨h1, _⟩ | ⟨_, _, _, r, hf⟩
    · rw [h1] at hcl; cases hcl
    · rw [h1] at hcl; cases hcl
    · obtain ⟨hr, i, rest, t, hl, ht, hri⟩ := hfirst r hf
      exact ⟨hr, i, r, rest, t, hl, ht, hri⟩
  · intro hcr
    obtain ⟨i, hi⟩ := hinv.crash hcr
    obtain ⟨t, ht, hcan⟩ := hinv.abn i (by rw [hi]; rfl)
    exact ⟨i, t, by rw [← hfn]; exact ht, hcan, hi⟩

/-- Claim C3 at `cancelScenario` under `cancelSched`, where `stop` ends closed. -/
theorem stop_closed_once_by_Run_witness :
    ∃ st, cancelScenario.Run cancelSched = some st ∧ st.stopClosed = true ∧
      (st.closes ≤ 1 ∧
      (st.stopClosed = true ↔ st.closes = 1) ∧
      (∀ i st', step st (.go i) = some st' → st'.stop = st.stop ∧ st'.closes = st.closes) ∧
      (∀ a st', step st a = some st' → st'.stopClosed = true → st.stopClosed = false →
        a = .main ∧ st'.closes = st.closes + 1 ∧ st.recvd = 1 ∧
        ∃ i r rest t, st.main = .closing r ∧ st.log = (i, r) :: rest ∧
          cancelScenario.fn.get? i = some t ∧ (st.gs i).ret = some r) ∧
      (st.stopClosed = true → st.recvd = 1 ∧
        ∃ i r rest t, st.log = (i, r) :: rest ∧ cancelScenario.fn.get? i = some t ∧
          (st.gs i).ret = some r) ∧
      (st.crashed = true →
        ∃ i t, cancelScenario.fn.get? i = some t ∧ t.canAbort ∧ (st.gs i).pc = .fatal)) := by
  have hsome : (cancelScenario.Run cancelSched).isSome = true := by decide
  obtain ⟨st, hst⟩ := Option.isSome_iff_exists.mp hsome
  have hc : st.stopClosed = true := by
    have h : (cancelScenario.Run cancelSched).map State.stopClosed = some true := by decide
    rw [hst] at h
    exact Option.some.inj h
  exact ⟨st, hst, hc, stop_closed_once_by_Run cancelScenario cancelSched st hst⟩

/-- Claim C4. For a group with no registered task (the empty `fn`, which is also the zero value
of `Group`), the first step of `Run` is enabled and is its return with `nil`: neither `stop`
nor `result` has been made, the counter is untouched, no goroutine exists, no task has been
called, and nothing is left to run. Every state reachable from the call of `Run` on that group
is the initial one or that final one. -/
theorem Run_zero_tasks (σ ε : Type) :
    ∃ st, (Group.mk ([] : List (Task σ ε))).Run [.main] = some st ∧
      st.returned = some none ∧ st.stop = none ∧ st.result = none ∧ st.made = 0 ∧
      st.wg = 0 ∧ st.crashed = false ∧
      (∀ i, (st.gs i).pc = .absent ∧ (st.gs i).calls = 0) ∧
      (∀ a, step st a = none) ∧
      (∀ sched st', (Group.mk ([] : List (Task σ ε))).Run sched = some st' →
        st'.stop = none ∧ st'.result = none ∧ st'.made = 0 ∧ st'.recvd = 0 ∧
        (∀ i, (st'.gs i).calls = 0) ∧ (st'.main = .idle ∨ st'.main = .done none)) := by
  refine ⟨{ init (Group.mk []) with main := .done none }, rfl, rfl, rfl, rfl, rfl, rfl, rfl,
    fun _ => ⟨rfl, rfl⟩, ?_, ?_⟩
  · intro a
    cases a <;> rfl
  · intro sched st' hrun
    obtain ⟨hinv, hfn⟩ := Run_inv hrun
    have hlen : st'.fn.length = 0 := by rw [hfn]; rfl
    have hm := hinv.main
    unfold MainInv at hm
    have hpr : Pristine st' → st'.stop = none ∧ st'.result = none ∧ st'.made = 0 ∧
        st'.recvd = 0 ∧ (∀ i, (st'.gs i).calls = 0) := fun hp =>
      ⟨hp.stop, hp.result, hp.made, hp.recvd, fun i => by
        rw [(hinv.gok i).calls, hp.gs i]; rfl⟩
    cases hmp : st'.main with
    | idle =>
      rw [hmp] at hm
      obtain ⟨h1, h2, h3, h4, h5⟩ := hpr hm
      exact ⟨h1, h2, h3, h4, h5, Or.inl rfl⟩
    | spawn k => rw [hmp] at hm; have := hm.1.pos; omega
    | recv => rw [hmp] at hm; have := hm.1.pos; omega
    | closing r => rw [hmp] at hm; have := hm.1.pos; omega
    | waiting r => rw [hmp] at hm; have := hm.1.pos; omega
    | done r =>
      rw [hmp] at hm
      rcases hm with ⟨hp, _, hr⟩ | hm
      · obtain ⟨h1, h2, h3, h4, h5⟩ := hpr hp
        exact ⟨h1, h2, h3, h4, h5, Or.inr (by rw [hr])⟩
      · have := hm.1.pos; omega

/-- Claim C5. Take a group with exactly one registered task which, called with `stop` open,
returns `V` after finitely many slices. Then some schedule makes `Run` return `V`; from every
state reachable from the call of `Run` some continuation of the schedule makes `Run` return
`V`, so no interleaving leaves `Run` stuck or aborted; and under every schedule after which
`Run` has returned, the value returned is `V`. -/
theorem Run_single_task (t : Task σ ε) (V : Option ε) (k : Nat)
    (hV : t.openOutcome k t.init = .ret V) :
    (∃ sched st, (Group.mk [t]).Run sched = some st ∧ st.returned = some V) ∧
    (∀ sched st, (Group.mk [t]).Run sched = some st →
      ∃ more st', (Group.mk [t]).Run (sched ++ more) = some st' ∧ st'.returned = some V) ∧
    (∀ sched st r, (Group.mk [t]).Run sched = some st → st.returned = some r → r = V) := by
  have hprog : ∀ sched st, (Group.mk [t]).Run sched = some st →
      ∃ more st', (Group.mk [t]).Run (sched ++ more) = some st' ∧ st'.returned = some V := by
    intro sched st hrun
    have hsolo : Solo t V st := Solo.exec hV sched _ _ (Solo.init t V) hrun
    obtain ⟨more, st', he, hr⟩ := solo_progress hV hsolo
    refine ⟨more, st', ?_, hr⟩
    unfold Group.Run at hrun ⊢
    rw [exec_append, hrun]
    exact he
  refine ⟨?_, hprog, ?_⟩
  · obtain ⟨more, st', he, hr⟩ := hprog [] (init (Group.mk [t])) rfl
    exact ⟨[] ++ more, st', he, hr⟩
  · intro sched st r hrun hret
    have hsolo : Solo t V st := Solo.exec hV sched _ _ (Solo.init t V) hrun
    obtain ⟨_, _, hf, _⟩ := hsolo.inv.at_done (returned_iff.mp hret) (by rw [hsolo.len])
    exact hsolo.value hf

/-- Claim C5 at the task that works for two slices and then returns `errFoo`; under
`soloSched` the execution of `Run` on it returns `errFoo`. -/
theorem Run_single_task_witness :
    (Task.stubborn 2 (some errFoo)).openOutcome 2 (Task.stubborn 2 (some errFoo)).init
      = .ret (some errFoo) ∧
    ((Group.mk [Task.stubborn 2 (some errFoo)] : Group Nat Nat).Run soloSched).bind
      State.returned = some (some errFoo) ∧
    ((∃ sched st, (Group.mk [Task.stubborn 2 (some errFoo)]).Run sched = some st ∧
      st.returned = some (some errFoo)) ∧
    (∀ sched st, (Group.mk [Task.stubborn 2 (some errFoo)]).Run sched = some st →
      ∃ more st', (Group.mk [Task.stubborn 2 (some errFoo)]).Run (sched ++ more) = some st' ∧
        st'.returned = some (some errFoo)) ∧
    (∀ sched st r, (Group.mk [Task.stubborn 2 (some errFoo)]).Run sched = some st →
      st.returned = some r → r = some errFoo)) :=
  ⟨rfl, by decide, Run_single_task (Task.stubborn 2 (some errFoo)) (some errFoo) 2 rfl⟩

/-- Claim C6, amended. In a memory whose slice headers point to allocated arrays, after
`Add(fn)` on the group stored at `p` the task list of that group is the old list followed by
`fn`: the length grows by one, every old index holds what it held, the new last index holds
`fn`, and what `Run` reads from the group is the old tasks followed by the new one. `Add` is
a total function of the memory and calls nothing. Its only other effect goes through the
backing array: the slice header of every other variable of type `Group` is unchanged, and the
task list of another group changes only when `Add` had spare capacity and that group shares
the backing array; its element just past the old length of this group, if it has one, is then
replaced by `fn`. A group on another array, or with no more tasks than this group had, keeps
its task list. -/
theorem Add_appends (grow : Nat → Nat) (w : World σ ε) (p : Nat) (fn : Option (Task σ ε))
    (hwf : w.wf) :
    (Group.Add grow w p fn).fnOf p = w.fnOf p ++ [fn] ∧
    ((Group.Add grow w p fn).fnOf p).length = (w.fnOf p).length + 1 ∧
    (∀ i, i < (w.fnOf p).length →
      ((Group.Add grow w p fn).fnOf p).get? i = (w.fnOf p).get? i) ∧
    ((Group.Add grow w p fn).fnOf p).get? (w.fnOf p).length = some fn ∧
    (∀ G t, w.load p = some G → fn = some t →
      (Group.Add grow w p fn).load p = some { fn := G.fn ++ [t] }) ∧
    (∀ q, q ≠ p → (Group.Add grow w p fn).hdr q = w.hdr q) ∧
    (∀ q, q ≠ p → (Group.Add grow w p fn).fnOf q =
      if (w.hdr p).len < (w.hdr p).cap ∧ (w.hdr q).ptr = (w.hdr p).ptr then
        (w.fnOf q).set (w.hdr p).len fn
      else w.fnOf q) ∧
    (∀ q, q ≠ p → (w.hdr q).ptr ≠ (w.hdr p).ptr ∨ (w.hdr q).len ≤ (w.hdr p).len →
      (Group.Add grow w p fn).fnOf q = w.fnOf q) ∧
    (Group.Add grow w p fn).invoked = w.invoked ∧
    (Group.Add grow w p fn).wf := by
  have hself := Add_fnOf_self grow w p fn
  refine ⟨hself, ?_, ?_, ?_, ?_, fun q hq => Add_hdr_other grow w p q fn hq,
    fun q hq => Add_fnOf_other grow w p q fn hwf hq, ?_, Add_invoked grow w p fn,
    Add_wf grow w p fn hwf⟩
  · rw [hself, List.length_append]
    rfl
  · intro i hi
    rw [hself]
    simp only [List.get?_eq_getElem?]
    exact List.getElem?_append_left hi
  · rw [hself]
    simp only [List.get?_eq_getElem?]
    simp
  · intro G t hG ht
    subst ht
    unfold World.load at hG ⊢
    rw [hself]
    cases ha : allFuncs (w.fnOf p) with
    | none => rw [ha] at hG; cases hG
    | some fns =>
      rw [ha] at hG
      cases hG
      rw [allFuncs_append _ _ _ ha]
  · intro q hq hor
    rw [Add_fnOf_other grow w p q fn hwf hq]
    split
    · rename_i hc
      rcases hor with h1 | h1
      · exact absurd hc.2 h1
      · apply List.set_eq_of_length_le
        unfold World.fnOf
        simpa using h1
    · rfl

/-- Claim C6 as stated fails at `aliased`, where `g` holds the functions returning 1, 2, 3, 4
and its by-value copy `h` holds the first three. After `h.Add(f5)` the task list of `h` is its
old list followed by `f5`, and the last task of `g` has become `f5` as well: the execution of
`Run` on `g` under `lastFirstSched`, which returned 4 before, now returns 5. -/
theorem Add_overwrites_alias :
    firstSlices (aliased.fnOf 0) =
      [some (.ret (some 1)), some (.ret (some 2)), some (.ret (some 3)), some (.ret (some 4))] ∧
    firstSlices (aliasedAfter.fnOf 1) =
      [some (.ret (some 1)), some (.ret (some 2)), some (.ret (some 3)), some (.ret (some 5))] ∧
    firstSlices (aliasedAfter.fnOf 0) =
      [some (.ret (some 1)), some (.ret (some 2)), some (.ret (some 3)), some (.ret (some 5))] ∧
    ((aliased.load 0).bind (fun g => g.Run lastFirstSched)).bind State.returned
      = some (some 4) ∧
    ((aliasedAfter.load 0).bind (fun g => g.Run lastFirstSched)).bind State.returned
      = some (some 5) :=
  ⟨rfl, rfl, rfl, by decide, by decide⟩

/-- Claim C6, amended, at `aliased` for `h.Add(f5)`: `g` and `h` share the array at address 3,
of capacity 4, and `h` has spare capacity, so `append` writes in place. -/
theorem Add_appends_witness :
    aliased.wf ∧
    (aliased.hdr 0, aliased.hdr 1, aliasedAfter.hdr 1)
      = ({ ptr := 3, len := 4, cap := 4 }, { ptr := 3, len := 3, cap := 4 },
         { ptr := 3, len := 4, cap := 4 }) ∧
    (aliasedAfter.fnOf 1 = aliased.fnOf 1 ++ [some (Task.immediate (some 5))] ∧
    (aliasedAfter.fnOf 1).length = (aliased.fnOf 1).length + 1 ∧
    (∀ i, i < (aliased.fnOf 1).length →
      (aliasedAfter.fnOf 1).get? i = (aliased.fnOf 1).get? i) ∧
    (aliasedAfter.fnOf 1).get? (aliased.fnOf 1).length = some (some (Task.immediate (some 5))) ∧
    (∀ G t, aliased.load 1 = some G → some (Task.immediate (some 5)) = some t →
      aliasedAfter.load 1 = some { fn := G.fn ++ [t] }) ∧
    (∀ q, q ≠ 1 → aliasedAfter.hdr q = aliased.hdr q) ∧
    (∀ q, q ≠ 1 → aliasedAfter.fnOf q =
      if (aliased.hdr 1).len < (aliased.hdr 1).cap ∧ (aliased.hdr q).ptr = (aliased.hdr 1).ptr
      then (aliased.fnOf q).set (aliased.hdr 1).len (some (Task.immediate (some 5)))
      else aliased.fnOf q) ∧
    (∀ q, q ≠ 1 →
      (aliased.hdr q).ptr ≠ (aliased.hdr 1).ptr ∨ (aliased.hdr q).len ≤ (aliased.hdr 1).len →
      aliasedAfter.fnOf q = aliased.fnOf q) ∧
    aliasedAfter.invoked = aliased.invoked ∧
    aliasedAfter.wf) :=
  ⟨aliased_wf, by decide,
    Add_appends doubling aliased 1 (some (Task.immediate (some 5))) aliased_wf⟩

/-- Claim C7. In every state reachable from the call of `Run`: every task has been called at most
once; nothing outside the registered indices has been called; nothing has been called while
`Run` has not begun; once `Run` has returned, every registered task has been called exactly
once; a task is called only when `stop` has been made, the call leaves `stop` as it is, and
only two channels are ever made, `stop` and `result`; every slice of every called task is
handed the same signal, namely whether the one `close(stop)` of this execution has been
executed; no call has been made in the state before `Run`, and `Add` makes none. -/
theorem tasks_called_exactly_once (g : Group σ ε) (sched : List Action) (st : State σ ε)
    (hrun : g.Run sched = some st) :
    (∀ i, (st.gs i).calls ≤ 1) ∧
    (∀ i, g.fn.length ≤ i → (st.gs i).calls = 0) ∧
    (st.main = .idle → ∀ i, (st.gs i).calls = 0) ∧
    (∀ r, st.returned = some r → ∀ i, i < g.fn.length → (st.gs i).calls = 1) ∧
    (∀ i, (st.gs i).calls = 1 → st.made = 2 ∧ ∃ c, st.stop = some c) ∧
    st.made ≤ 2 ∧
    (∀ i t, st.crashed = false → (st.gs i).pc = .created → g.fn.get? i = some t →
      ∃ st' c, step st (.go i) = some st' ∧ (st'.gs i).pc = .running t.init ∧
        (st'.gs i).calls = 1 ∧ st.stop = some c ∧ st'.stop = some c) ∧
    (∀ i s t, st.crashed = false → (st.gs i).pc = .running s → g.fn.get? i = some t →
      ∃ st', step st (.go i) = some st' ∧
        (st'.gs i).pc = GoPc.after (t.body s (decide (st.closes = 1)))) ∧
    (∀ i, ((init g).gs i).calls = 0) ∧
    (∀ (grow : Nat → Nat) (w : World σ ε) p fn, (Group.Add grow w p fn).invoked = w.invoked) := by
  obtain ⟨hinv, hfn⟩ := Run_inv hrun
  refine ⟨?_, ?_, ?_, ?_, ?_, ?_, ?_, ?_, fun _ => rfl, fun grow w p fn => Add_invoked grow w p fn⟩
  · intro i
    rw [(hinv.gok i).calls]
    exact GoPc.callsAt_le _
  · intro i hi
    rw [(hinv.gok i).calls, hinv.outside i (by rw [hfn]; exact hi)]
    rfl
  · intro hidle i
    have hm := hinv.main
    unfold MainInv at hm
    rw [hidle] at hm
    rw [(hinv.gok i).calls, hm.gs i]
    rfl
  · intro r hret i hi
    have hd := returned_iff.mp hret
    have hpos : 1 ≤ st.fn.length := by rw [hfn]; omega
    obtain ⟨hs, _, _, _, _, hwg⟩ := hinv.at_done hd hpos
    have hfin := hinv.all_finished hs hwg i (by rw [hfn]; exact hi)
    rw [(hinv.gok i).calls]
    cases hpc : (st.gs i).pc <;> rw [hpc] at hfin <;> simp [GoPc.finished] at hfin <;> rfl
  · intro i hcall
    rw [(hinv.gok i).calls] at hcall
    have hne : (st.gs i).pc ≠ .absent := by
      intro e; rw [e] at hcall; cases hcall
    have hs := hinv.started hne
    refine ⟨hs.made, ?_⟩
    rcases hinv.stop_cases with ⟨_, _, _, h4⟩ | ⟨h1, _⟩ | ⟨h1, _⟩
    · have := hs.made; rw [h4] at this; cases this
    · exact ⟨_, h1⟩
    · exact ⟨_, h1⟩
  · rcases hinv.stop_cases with ⟨_, _, _, h4⟩ | ⟨_, _, h4⟩ | ⟨_, _, h4, _⟩ <;> omega
  · intro i t hc hpc ht
    exact hinv.call hc hpc (by rw [hfn]; exact ht)
  · intro i s t hc hpc ht
    have hobs : st.stopClosed = decide (st.closes = 1) := by
      unfold State.stopClosed
      rcases hinv.stop_cases with ⟨h1, h2, _⟩ | ⟨h1, h2, _⟩ | ⟨h1, h2, _⟩ <;>
        rw [h1, h2] <;> rfl
    rw [← hfn] at ht
    rw [step_go_eq hc]
    unfold stepGo
    rw [hpc]
    simp only
    rw [ht]
    simp only
    rw [hobs]
    cases hb : t.body s (decide (st.closes = 1)) with
    | more s' => exact ⟨_, rfl, by rw [setG_gs_self]; rfl⟩
    | ret v => exact ⟨_, rfl, by rw [setG_gs_self]; rfl⟩
    | goexit => exact ⟨_, rfl, by rw [setG_gs_self]; rfl⟩
    | panics => exact ⟨_, rfl, by rw [setG_gs_self]; rfl⟩

/-- Claim C7 at `cancelScenario` under `cancelClosed`: `stop` has been closed while task 1,
which waits for it, is running and task 2 has not been called; the next slice of task 1 and
the first slice of task 2 both see `stop` closed and return. -/
theorem tasks_called_exactly_once_witness :
    (cancelScenario.Run (cancelClosed ++ [.go 1, .go 2, .go 2])).map
      (fun x => ((x.gs 1).ret, (x.gs 2).ret)) = some (some none, some none) ∧
    ∃ st, cancelScenario.Run cancelClosed = some st ∧ st.closes = 1 ∧
      (st.gs 1).pc = .running 0 ∧
      ((∀ i, (st.gs i).calls ≤ 1) ∧
      (∀ i, cancelScenario.fn.length ≤ i → (st.gs i).calls = 0) ∧
      (st.main = .idle → ∀ i, (st.gs i).calls = 0) ∧
      (∀ r, st.returned = some r → ∀ i, i < cancelScenario.fn.length → (st.gs i).calls = 1) ∧
      (∀ i, (st.gs i).calls = 1 → st.made = 2 ∧ ∃ c, st.stop = some c) ∧
      st.made ≤ 2 ∧
      (∀ i t, st.crashed = false → (st.gs i).pc = .created →
        cancelScenario.fn.get? i = some t →
        ∃ st' c, step st (.go i) = some st' ∧ (st'.gs i).pc = .running t.init ∧
          (st'.gs i).calls = 1 ∧ st.stop = some c ∧ st'.stop = some c) ∧
      (∀ i s t, st.crashed = false → (st.gs i).pc = .running s →
        cancelScenario.fn.get? i = some t →
        ∃ st', step st (.go i) = some st' ∧
          (st'.gs i).pc = GoPc.after (t.body s (decide (st.closes = 1)))) ∧
      (∀ i, ((init cancelScenario).gs i).calls = 0) ∧
      (∀ (grow : Nat → Nat) (w : World Nat Nat) p fn,
        (Group.Add grow w p fn).invoked = w.invoked)) := by
  have hsome : (cancelScenario.Run cancelClosed).isSome = true := by decide
  obtain ⟨st, hst⟩ := Option.isSome_iff_exists.mp hsome
  have h1 : st.closes = 1 := by
    have h : (cancelScenario.Run cancelClosed).map State.closes = some 1 := by decide
    rw [hst] at h
    exact Option.some.inj h
  have h2 : (st.gs 1).pc = .running 0 := by
    have h : (cancelScenario.Run cancelClosed).map (fun x => (x.gs 1).pc)
        = some (.running 0) := rfl
    rw [hst] at h
    exact Option.some.inj h
  exact ⟨by decide, st, hst, h1, h2,
    tasks_called_exactly_once cancelScenario cancelClosed st hst⟩

/-- Claim C8, amended. In every state reachable from the call of `Run`, for every goroutine `i`:
it has called `wg.Done` at most once and sent at most once; when its task has returned or has
ended by `runtime.Goexit` or a panic, its deferred `wg.Done()` is enabled, does not panic,
takes the counter down by one, and sends nothing; when its task has returned `v`, its send of
`v` is enabled; and once the goroutine is gone it has called `wg.Done` exactly once, and has
sent exactly once if its task returned a value and not at all if its task ended without one. -/
theorem unit_of_work_done_once (g : Group σ ε) (sched : List Action) (st : State σ ε)
    (i : Nat) (hrun : g.Run sched = some st) :
    (st.gs i).dones ≤ 1 ∧ (st.gs i).pubs ≤ 1 ∧
    (st.crashed = false → ((st.gs i).pc = .sent ∨ ∃ f, (st.gs i).pc = .unwinding f) →
      ∃ st', step st (.go i) = some st' ∧ st'.crashed = false ∧ (st'.gs i).dones = 1 ∧
        st'.wg + 1 = st.wg ∧ (st'.gs i).pc.finished = true ∧
        (st'.gs i).pubs = (st.gs i).pubs ∧ st'.log = st.log) ∧
    (st.crashed = false → ∀ v, (st.gs i).pc = .returned v →
      ∃ st', step st (.go i) = some st' ∧ (st'.gs i).pc = .sent ∧ (st'.gs i).pubs = 1 ∧
        st'.log = st.log ++ [(i, v)]) ∧
    ((st.gs i).pc.finished = true →
      (st.gs i).dones = 1 ∧ (st.gs i).pubs = (if (st.gs i).pc.abnormal then 0 else 1) ∧
      ((st.gs i).pc.abnormal = false ↔ ∃ v, (st.gs i).ret = some v)) := by
  obtain ⟨hinv, hfn⟩ := Run_inv hrun
  have hg := hinv.gok i
  refine ⟨by rw [hg.dones]; exact GoPc.donesAt_le _, by rw [hg.pubs]; exact GoPc.pubsAt_le _,
    ?_, ?_, ?_⟩
  · intro hc hpc
    obtain ⟨next, hnext, hpos, hstep⟩ := hinv.done_enabled hc hpc
    have hd0 : (st.gs i).dones = 0 := by
      rw [hg.dones]
      rcases hpc with hpc | ⟨f, hpc⟩ <;> rw [hpc] <;> rfl
    refine ⟨_, hstep, hc, ?_, ?_, ?_, ?_, rfl⟩
    · show ((st.setG i _).gs i).dones = 1
      rw [setG_gs_self]
      show (st.gs i).dones + 1 = 1
      rw [hd0]
    · show st.wg - 1 + 1 = st.wg
      omega
    · show ((st.setG i _).gs i).pc.finished = true
      rw [setG_gs_self]
      exact hnext
    · show ((st.setG i _).gs i).pubs = _
      rw [setG_gs_self]
  · intro hc v hpc
    obtain ⟨buf, _, _, hstep⟩ := hinv.send_enabled hc hpc
    have hp0 : (st.gs i).pubs = 0 := by rw [hg.pubs, hpc]; rfl
    refine ⟨_, hstep, ?_, ?_, rfl⟩
    · show ((st.setG i _).gs i).pc = _
      rw [setG_gs_self]
    · show ((st.setG i _).gs i).pubs = 1
      rw [setG_gs_self]
      show (st.gs i).pubs + 1 = 1
      rw [hp0]
  · intro hfin
    obtain ⟨h1, h2, _, h4⟩ := hinv.pubs_of_finished hfin
    exact ⟨h1, h2, h4⟩

/-- Claim C8 as stated fails at `quitScenario` under `quitPrefix`: the goroutine of task 1,
whose task called `runtime.Goexit()`, is gone, has called `wg.Done` once, and has sent nothing;
the history of sends is empty. -/
theorem goexit_task_publishes_nothing :
    (quitScenario.Run quitPrefix).map
      (fun st => ((st.gs 1).pc.finished, (st.gs 1).dones, (st.gs 1).pubs, st.log.length))
      = some (true, 1, 0, 0) := by
  decide

/-- Claim C8, amended, at `quitScenario` under `quitPrefix`, for goroutine 1. -/
theorem unit_of_work_done_once_witness :
    ∃ st, quitScenario.Run quitPrefix = some st ∧
      ((st.gs 1).dones ≤ 1 ∧ (st.gs 1).pubs ≤ 1 ∧
      (st.crashed = false → ((st.gs 1).pc = .sent ∨ ∃ f, (st.gs 1).pc = .unwinding f) →
        ∃ st', step st (.go 1) = some st' ∧ st'.crashed = false ∧ (st'.gs 1).dones = 1 ∧
          st'.wg + 1 = st.wg ∧ (st'.gs 1).pc.finished = true ∧
          (st'.gs 1).pubs = (st.gs 1).pubs ∧ st'.log = st.log) ∧
      (st.crashed = false → ∀ v, (st.gs 1).pc = .returned v →
        ∃ st', step st (.go 1) = some st' ∧ (st'.gs 1).pc = .sent ∧ (st'.gs 1).pubs = 1 ∧
          st'.log = st.log ++ [(1, v)]) ∧
      ((st.gs 1).pc.finished = true →
        (st.gs 1).dones = 1 ∧ (st.gs 1).pubs = (if (st.gs 1).pc.abnormal then 0 else 1) ∧
        ((st.gs 1).pc.abnormal = false ↔ ∃ v, (st.gs 1).ret = some v))) := by
  have hsome : (quitScenario.Run quitPrefix).isSome = true := by decide
  obtain ⟨st, hst⟩ := Option.isSome_iff_exists.mp hsome
  exact ⟨st, hst, unit_of_work_done_once quitScenario quitPrefix st 1 hst⟩

/-- Claim C9, amended. Take a group with `N >= 1` registered tasks. In every state reachable
from the call of `Run`, once `Run` has begun: `result` has capacity `N`, its buffer holds at
most `N` results, namely those sent and not yet received; a goroutine whose task has returned
finds room in the buffer, so its send is enabled; and when `Run` has returned, exactly one
result has been received, and the number of results sent is the number of tasks that returned
a value, at least one, and exactly `N` when no task can end by `runtime.Goexit` or a panic. -/
theorem result_buffer_never_full (g : Group σ ε) (sched : List Action) (st : State σ ε)
    (hpos : 1 ≤ g.fn.length) (hrun : g.Run sched = some st) :
    (st.main ≠ .idle → st.cap = g.fn.length ∧ ∃ buf, st.result = some buf ∧
      buf.length ≤ g.fn.length ∧ buf.length + st.recvd = st.log.length ∧
      st.log.length ≤ g.fn.length) ∧
    (st.crashed = false → ∀ i v, (st.gs i).pc = .returned v →
      ∃ buf st', st.result = some buf ∧ buf.length < st.cap ∧
        step st (.go i) = some st' ∧ st'.result = some (buf ++ [v])) ∧
    (∀ r, st.returned = some r → st.recvd = 1 ∧ 1 ≤ st.log.length ∧
      st.log.length = st.retCount ∧
      ((∀ t, t ∈ g.fn → ¬ t.canAbort) → st.log.length = g.fn.length)) := by
  obtain ⟨hinv, hfn⟩ := Run_inv hrun
  have hpos' : 1 ≤ st.fn.length := by rw [hfn]; exact hpos
  refine ⟨?_, ?_, ?_⟩
  · intro hmain
    have hs := hinv.started_of_main hpos' hmain
    obtain ⟨buf, hbuf, hlen, _⟩ := hinv.buffer hs
    have h1 := hs.log
    have h2 := hinv.pubCount_le
    have h3 := hs.cap
    rw [hfn] at h2 h3
    exact ⟨h3, buf, hbuf, by omega, hlen, by omega⟩
  · intro hc i v hpc
    obtain ⟨buf, hbuf, hlt, hstep⟩ := hinv.send_enabled hc hpc
    exact ⟨buf, _, hbuf, hlt, hstep, rfl⟩
  · intro r hret
    have hd := returned_iff.mp hret
    obtain ⟨hs, _, hf, _, _, hwg⟩ := hinv.at_done hd hpos'
    have hfin := hinv.all_finished hs hwg
    obtain ⟨i, rest, hl, _⟩ := hf.log
    refine ⟨hf.recvd, by rw [hl]; simp, ?_, ?_⟩
    · rw [hs.log]
      exact sumTo_congr _ _ _ (fun j hj => (hinv.pubs_of_finished (hfin j hj)).2.2.1)
    · intro hna
      rw [hs.log, ← hfn]
      refine sumTo_ones _ _ (fun j hj => ?_)
      obtain ⟨_, h2, _, _⟩ := hinv.pubs_of_finished (hfin j hj)
      show (st.gs j).pubs = 1
      rw [h2]
      cases hab : (st.gs j).pc.abnormal with
      | false => rfl
      | true =>
        obtain ⟨t, ht, hcan⟩ := hinv.abn j hab
        rw [hfn] at ht
        exact absurd hcan (hna t (List.get?_mem ht))

/-- Claim C9 as stated fails at `quitScenario` under `quitSched`: `Run` has returned `nil`,
one result has been received, and one result has been sent although two tasks are
registered. -/
theorem fewer_results_than_tasks :
    (quitScenario.Run quitSched).map
      (fun st => (st.returned, st.recvd, st.log.length, st.fn.length))
      = some (some none, 1, 1, 2) := by
  decide

/-- Claim C9, amended, at `quitScenario` under `quitSched`. -/
theorem result_buffer_never_full_witness :
    ∃ st, quitScenario.Run quitSched = some st ∧
      ((st.main ≠ .idle → st.cap = quitScenario.fn.length ∧ ∃ buf, st.result = some buf ∧
        buf.length ≤ quitScenario.fn.length ∧ buf.length + st.recvd = st.log.length ∧
        st.log.length ≤ quitScenario.fn.length) ∧
      (st.crashed = false → ∀ i v, (st.gs i).pc = .returned v →
        ∃ buf st', st.result = some buf ∧ buf.length < st.cap ∧
          step st (.go i) = some st' ∧ st'.result = some (buf ++ [v])) ∧
      (∀ r, st.returned = some r → st.recvd = 1 ∧ 1 ≤ st.log.length ∧
        st.log.length = st.retCount ∧
        ((∀ t, t ∈ quitScenario.fn → ¬ t.canAbort) →
          st.log.length = quitScenario.fn.length))) := by
  have hsome : (quitScenario.Run quitSched).isSome = true := by decide
  obtain ⟨st, hst⟩ := Option.isSome_iff_exists.mp hsome
  exact ⟨st, hst, result_buffer_never_full quitScenario quitSched st (by decide) hst⟩

/-- Claim C10. The lifecycle of `Run` is `idle`, `running`, `draining`, `done`. It starts `idle`.
Every step of the process keeps the lifecycle state or advances it by exactly one, except
that `idle` goes to `done` when, and only when, no task is registered, and to `running`
only when one is. In `running` at least one task is registered and `stop` is open, and when
`Run` is at its receive every `go` statement has been executed; in `draining` the first result
has been received and `stop` is closed; in `done` with a task registered, `stop` is closed,
the counter is zero and every goroutine is gone. -/
theorem Run_lifecycle (g : Group σ ε) (sched : List Action) (st : State σ ε)
    (hrun : g.Run sched = some st) :
    (init g).phase = .idle ∧
    (∀ a st', step st a = some st' → Phase.next g.fn.length st.phase st'.phase = true) ∧
    (st.phase = .running → 1 ≤ g.fn.length ∧ st.stop = some false ∧ st.closes = 0 ∧
      (st.main = .recv → Launched st ∧ st.recvd = 0) ∧
      (∀ r, st.main = .closing r → Launched st ∧ st.recvd = 1)) ∧
    (st.phase = .draining → 1 ≤ g.fn.length ∧ Launched st ∧ st.stop = some true ∧
      st.closes = 1 ∧ st.recvd = 1) ∧
    (st.phase = .done → (g.fn = [] ∧ st.stop = none ∧ st.result = none) ∨
      (1 ≤ g.fn.length ∧ st.stop = some true ∧ st.closes = 1 ∧ st.recvd = 1 ∧ st.wg = 0 ∧
        ∀ i, i < g.fn.length → (st.gs i).pc.finished = true)) := by
  obtain ⟨hinv, hfn⟩ := Run_inv hrun
  have hm := hinv.main
  unfold MainInv at hm
  refine ⟨rfl, fun a st' hs => by rw [← hfn]; exact step_phase hs, ?_, ?_, ?_⟩
  · intro hp
    unfold State.phase at hp
    cases hmp : st.main with
    | idle => rw [hmp] at hp; cases hp
    | spawn k =>
      rw [hmp] at hm
      exact ⟨by rw [← hfn]; exact hm.1.pos, hm.2.1.stop, hm.2.1.closes,
        fun e => MainPc.noConfusion e, fun r e => MainPc.noConfusion e⟩
    | recv =>
      rw [hmp] at hm
      exact ⟨by rw [← hfn]; exact hm.1.pos, hm.2.1.stop, hm.2.1.closes,
        fun _ => ⟨hm.2.2, hm.2.1.recvd⟩, fun r e => MainPc.noConfusion e⟩
    | closing r =>
      rw [hmp] at hm
      exact ⟨by rw [← hfn]; exact hm.1.pos, hm.2.2.2.1, hm.2.2.2.2,
        fun e => MainPc.noConfusion e, fun r' _ => ⟨hm.2.1, hm.2.2.1.recvd⟩⟩
    | waiting r => rw [hmp] at hp; cases hp
    | done r => rw [hmp] at hp; cases hp
  · intro hp
    unfold State.phase at hp
    cases hmp : st.main with
    | waiting r =>
      rw [hmp] at hm
      exact ⟨by rw [← hfn]; exact hm.1.pos, hm.2.1, hm.2.2.2.1, hm.2.2.2.2, hm.2.2.1.recvd⟩
    | idle => rw [hmp] at hp; cases hp
    | spawn k => rw [hmp] at hp; cases hp
    | recv => rw [hmp] at hp; cases hp
    | closing r => rw [hmp] at hp; cases hp
    | done r => rw [hmp] at hp; cases hp
  · intro hp
    unfold State.phase at hp
    cases hmp : st.main with
    | done r =>
      rw [hmp] at hm
      rcases hm with ⟨hpr, hnil, _⟩ | ⟨hs, hl, hf, h1, h2, h3⟩
      · exact Or.inl ⟨by rw [← hfn]; exact hnil, hpr.stop, hpr.result⟩
      · exact Or.inr ⟨by rw [← hfn]; exact hs.pos, h1, h2, hf.recvd, h3,
          fun i hi => hinv.all_finished hs h3 i (by rw [hfn]; exact hi)⟩
    | idle => rw [hmp] at hp; cases hp
    | spawn k => rw [hmp] at hp; cases hp
    | recv => rw [hmp] at hp; cases hp
    | closing r => rw [hmp] at hp; cases hp
    | waiting r => rw [hmp] at hp; cases hp

/-- Claim C10 at `cancelScenario` under `cancelSched`, which ends in `done`. -/
theorem Run_lifecycle_witness :
    ∃ st, cancelScenario.Run cancelSched = some st ∧ st.phase = .done ∧
      ((init cancelScenario).phase = .idle ∧
      (∀ a st', step st a = some st' →
        Phase.next cancelScenario.fn.length st.phase st'.phase = true) ∧
      (st.phase = .running → 1 ≤ cancelScenario.fn.length ∧ st.stop = some false ∧ st.closes = 0 ∧
        (st.main = .recv → Launched st ∧ st.recvd = 0) ∧
        (∀ r, st.main = .closing r → Launched st ∧ st.recvd = 1)) ∧
      (st.phase = .draining → 1 ≤ cancelScenario.fn.length ∧ Launched st ∧ st.stop = some true ∧
        st.closes = 1 ∧ st.recvd = 1) ∧
      (st.phase = .done → (cancelScenario.fn = [] ∧ st.stop = none ∧ st.result = none) ∨
        (1 ≤ cancelScenario.fn.length ∧ st.stop = some true ∧ st.closes = 1 ∧ st.recvd = 1 ∧
          st.wg = 0 ∧ ∀ i, i < cancelScenario.fn.length → (st.gs i).pc.finished = true))) := by
  have hsome : (cancelScenario.Run cancelSched).isSome = true := by decide
  obtain ⟨st, hst⟩ := Option.isSome_iff_exists.mp hsome
  have hp : st.phase = .done := by
    have h : (cancelScenario.Run cancelSched).map State.phase = some Phase.done := by decide
    rw [hst] at h
    exact Option.some.inj h
  exact ⟨st, hst, hp, Run_lifecycle cancelScenario cancelSched st hst⟩

end Workgroup
